import Mathlib

/-!
# Verification of the chunked, concurrency-bounded, cancellable fetch orchestrator

A shallow embedding of the core of `src/App.tsx` (`handleSequenceGenerate`,
`handleDelete`) and `src/services/geminiService.ts` (`fetchESGNews`), together
with proofs and refutations of the specified properties.

Modelling conventions:
* Calendar dates are integers (day numbers); the source manipulates `Date`
  objects whose differences are exact multiples of 86400000 ms, and the spec
  fixes UTC calendar days, so day arithmetic is faithful.
* The density (`itemsPerDay`) is a rational number standing for the
  caller-supplied JS number.
* The single-threaded JS event loop is modelled by a deterministic scheduler
  parameterised over an environment `Env` giving each chunk's fetch outcome,
  the order in which each window's promises settle, and the value of the
  `stopRef` flag at each window-boundary read.  `Promise.all` is modelled
  faithfully: the window's result array is in submission order, while the
  settle order only shows up in the event trace.
-/

/-- Model of `NewsItem` as produced by the response mapping in `geminiService.ts`
(spec: Item = {id, timestamp, text, sourceLabel, scopeTag}). -/
structure NewsItem where
  id : String
  time : String
  text : String
  source : String
  ticker : String
deriving DecidableEq

/-- A JS `Error`, reduced to the only field the orchestrator inspects. -/
structure GenError where
  message : String
deriving DecidableEq

/-- Whether `pat` occurs as a contiguous substring of the character list, mirroring
JS `String.prototype.includes`. -/
def isSub (pat : List Char) : List Char → Bool
  | [] => pat.isEmpty
  | c :: rest => pat.isPrefixOf (c :: rest) || isSub pat rest

/-- JS `s.includes(pat)`. -/
def strContains (s pat : String) : Bool := isSub pat.toList s.toList

/-- The fatal-error test of `App.tsx` line 96:
`res.err.message.includes("API Key")`. -/
def isFatal (e : GenError) : Bool := strContains e.message "API Key"

/-! ## Chunk Planner (`App.tsx` lines 36-63) -/

/-- Source `App.tsx` line 37: `const TARGET_ITEMS_PER_REQ = 25`. -/
def TARGET_ITEMS_PER_REQ : ℚ := 25

/-- Source `App.tsx` lines 38-40:
`rawDays = Math.ceil(TARGET_ITEMS_PER_REQ / Math.max(0.1, itemsPerDay))`,
`chunkDays = Math.max(5, Math.min(rawDays, 60))`. -/
def chunkDays (itemsPerDay : ℚ) : ℤ :=
  let rawDays : ℤ := Int.ceil (TARGET_ITEMS_PER_REQ / max (1/10) itemsPerDay)
  max 5 (min rawDays 60)

/-- One planned chunk (`App.tsx` lines 56-60): a date sub-range plus the
target item count pushed by the planner loop.  `endD` stands for the source
field `end`, which is a reserved word in Lean. -/
structure Chunk where
  start : ℤ
  endD : ℤ
  count : ℤ
deriving DecidableEq

/-- The planner's `while (currentDate < finalDate)` loop (`App.tsx` lines
47-63), as a fuel-indexed structural recursion.  Each iteration advances
`currentDate` by at least one day (since `chunkDays ≥ 5`), so fuel
`(finalDate - currentDate).toNat` is always sufficient; `planGo_fuel` below
proves the output is independent of any sufficient fuel, i.e. the loop
terminates. -/
def planGo (itemsPerDay : ℚ) (finalDate : ℤ) : ℕ → ℤ → List Chunk
  | 0, _ => []
  | fuel + 1, currentDate =>
    if currentDate < finalDate then
      let chunkEnd := currentDate + chunkDays itemsPerDay
      let actualEnd := min chunkEnd finalDate
      let daysInChunk : ℤ := actualEnd - currentDate
      let count : ℤ := Int.ceil ((daysInChunk : ℚ) * itemsPerDay)
      (if 0 < count then [⟨currentDate, actualEnd, count⟩] else []) ++
        planGo itemsPerDay finalDate fuel actualEnd
    else []

/-- The chunk list pre-calculated by `handleSequenceGenerate`
(`App.tsx` lines 43-63). -/
def planChunks (startDate finalDate : ℤ) (itemsPerDay : ℚ) : List Chunk :=
  planGo itemsPerDay finalDate (finalDate - startDate).toNat startDate

/-- Predicate `chainFrom s e cs` says the chunks `cs` tile the date range `[s, e]`:
each chunk starts where the previous one ended (contiguity, hence no
overlap), every chunk is non-degenerate, the first starts at `s` and the
last ends at `e` (the union is exactly the range).  An empty list tiles
exactly the empty range `s = e`. -/
def chainFrom : ℤ → ℤ → List Chunk → Prop
  | s, e, [] => s = e
  | s, e, c :: rest => c.start = s ∧ s < c.endD ∧ chainFrom c.endD e rest

/-! ## Result Accumulator (`App.tsx` lines 136-138) -/

/-- Source `handleDelete`: `setNewsData(prev => prev.filter(item => item.id !== id))`. -/
def handleDelete (newsData : List NewsItem) (id : String) : List NewsItem :=
  newsData.filter fun item => item.id != id

/-! ## Fetch Capability retry loop (`geminiService.ts` lines 15-18, 81-136) -/

/-- Source `geminiService.ts` line 6: `const MAX_RETRIES = 3`. -/
def MAX_RETRIES : ℕ := 3

/-- The `while (attempt < MAX_RETRIES)` retry loop of `fetchESGNews`
(`geminiService.ts` lines 81-136).  `oracle n` is the outcome of the `n`-th
`generateContent` attempt (success with the mapped items, or a thrown
error).  Returns the final outcome, the number of attempts actually made,
and the list of backoff delays (ms) slept, in order.  Fuel starts at
`MAX_RETRIES - attempt`, exactly the remaining loop iterations; the
fuel-exhausted branch is the trailing
`throw new Error("Failed to fetch news after multiple attempts")`. -/
def retryGo (oracle : ℕ → Except GenError (List NewsItem)) :
    ℕ → ℕ → Except GenError (List NewsItem) × ℕ × List ℕ
  | 0, attempt => (.error ⟨"Failed to fetch news after multiple attempts"⟩, attempt, [])
  | fuel + 1, attempt =>
    match oracle attempt with
    | .ok items => (.ok items, attempt + 1, [])
    | .error e =>
      let attempt' := attempt + 1
      if strContains e.message "API Key" then (.error e, attempt', [])
      else if attempt' = MAX_RETRIES then (.error e, attempt', [])
      else
        let d := 1000 * 2 ^ attempt'
        let rest := retryGo oracle fuel attempt'
        (rest.1, rest.2.1, d :: rest.2.2)

/-- Model of `fetchESGNews` (`geminiService.ts` lines 8-137): the missing-key guard
(`if (!apiKey) throw`, lines 15-18; JS falsiness makes both `undefined` and
the empty string "missing") followed by the retry loop. -/
def fetchESGNews (apiKey : Option String)
    (oracle : ℕ → Except GenError (List NewsItem)) :
    Except GenError (List NewsItem) × ℕ × List ℕ :=
  match apiKey with
  | none => (.error ⟨"API Key is missing. Please select a paid API key."⟩, 0, [])
  | some k =>
    if k = "" then (.error ⟨"API Key is missing. Please select a paid API key."⟩, 0, [])
    else retryGo oracle MAX_RETRIES 0

/-! ## Batch Scheduler (`App.tsx` lines 65-132) -/

/-- Trace events: a fetch call being dispatched for chunk `idx`, and that
chunk's promise settling. -/
inductive Ev where
  | dispatch (idx : ℕ)
  | settle (idx : ℕ)
deriving DecidableEq

/-- The wrapped per-chunk result produced by the `.then/.catch` wrapper
(`App.tsx` lines 79-83): `{success: true, items}` or `{success: false, err}`. -/
inductive WrappedResult where
  | success (items : List NewsItem)
  | failure (err : GenError)
deriving DecidableEq

/-- The scheduler's environment: the event-loop nondeterminism the code runs
against.  `outcome i` is the settled result of chunk `i`'s fetch;
`settleSeq w` is the order (by chunk index) in which window `w`'s promises
settle; `stop w` is the value of `stopRef.current` read at the boundary of
window `w` (reads after the final window use the next index). -/
structure Env where
  outcome : ℕ → WrappedResult
  settleSeq : ℕ → List ℕ
  stop : ℕ → Bool

/-- The mutable state threaded through the run: the accumulator
(`newsData`), the two counters, the progress message, and the event trace. -/
structure SchedState where
  newsData : List NewsItem
  totalGenerated : ℕ
  errorCount : ℕ
  progressStr : String
  trace : List Ev
deriving DecidableEq

/-- The result array of `await Promise.all(promises)` for a window whose
chunks have indices `b, b+1, …, b+k-1`: in submission order, one entry per
chunk, regardless of settle order (`App.tsx` lines 79-85). -/
def wRes (env : Env) (b k : ℕ) : List WrappedResult :=
  (List.range k).map fun j => env.outcome (b + j)

/-- The `for (const res of results)` loop (`App.tsx` lines 88-100): appends
successes in array order, counts failures, and throws the first error whose
message includes "API Key", abandoning the remaining results. -/
def processResults : List WrappedResult → SchedState → SchedState × Option GenError
  | [], st => (st, none)
  | r :: rest, st =>
    match r with
    | .success items =>
      processResults rest { st with
        newsData := st.newsData ++ items,
        totalGenerated := st.totalGenerated + items.length }
    | .failure e =>
      let st' := { st with errorCount := st.errorCount + 1 }
      if isFatal e then (st', some e) else processResults rest st'

/-- Source `App.tsx` line 66. -/
def CONCURRENCY : ℕ := 3

/-- The in-progress message set before each window (`App.tsx` line 75). -/
def batchMsg (batchIdx totalBatches batchLen totalGenerated errorCount : ℕ) : String :=
  s!"Batch {batchIdx}/{totalBatches}: Crawling {batchLen} parallel segments... | Total: {totalGenerated} | Errors: {errorCount}"

/-- The events contributed by one window: all `k` fetches are dispatched
together (fan-out), then the promises settle in the environment-chosen
order; the `await Promise.all` barrier means every settle happens before
the loop continues. -/
def windowEvents (b k : ℕ) (settles : List ℕ) : List Ev :=
  ((List.range k).map fun j => Ev.dispatch (b + j)) ++ settles.map Ev.settle

/-- The window loop of `handleSequenceGenerate` (`App.tsx` lines 69-106)
over the pre-partitioned window list.  `b` is the index of the first chunk
of the current window, `w` the current window number.  Returns the final
state, the window number at which the loop exited (where the post-loop
`stopRef.current` read happens), and the error thrown out of the loop, if
any. -/
def schedLoop (env : Env) (totalBatches : ℕ) :
    List (List Chunk) → ℕ → ℕ → SchedState → SchedState × ℕ × Option GenError
  | [], _, w, st => (st, w, none)
  | batch :: wsRest, b, w, st =>
    if env.stop w then (st, w, none)
    else
      let st1 : SchedState := { st with
        progressStr := batchMsg (w + 1) totalBatches batch.length
          st.totalGenerated st.errorCount,
        trace := st.trace ++ windowEvents b batch.length (env.settleSeq w) }
      match processResults (wRes env b batch.length) st1 with
      | (st2, some e) => (st2, w + 1, some e)
      | (st2, none) => schedLoop env totalBatches wsRest (b + batch.length) (w + 1) st2

/-- Source `chunks.slice(i, i + CONCURRENCY)` for `i = 0, 3, 6, …` (`App.tsx`
lines 69-72): the chunk list partitioned into consecutive windows of at
most `CONCURRENCY = 3` chunks. -/
def toWindows : List Chunk → List (List Chunk)
  | [] => []
  | [c1] => [[c1]]
  | [c1, c2] => [[c1, c2]]
  | c1 :: c2 :: c3 :: rest => [c1, c2, c3] :: toWindows rest

/-- How a run ends: falls off the window loop with the stop flag clear
(completed) or set (stopped by user), or an error is thrown out of the loop
(aborted, caught at `App.tsx` line 114). -/
inductive Terminal where
  | completed
  | stopped
  | aborted (e : GenError)
deriving DecidableEq

/-- Source `App.tsx` line 109. -/
def stoppedMsg (totalGenerated errorCount : ℕ) : String :=
  s!"Stopped by user. Total: {totalGenerated}. Errors: {errorCount}"

/-- Source `App.tsx` line 111. -/
def completedMsg (totalGenerated errorCount : ℕ) : String :=
  s!"Sequence Completed! Total: {totalGenerated}. Errors: {errorCount}"

/-- The state at the start of a run: empty accumulator and counters reset
(`App.tsx` lines 27-32). -/
def initState : SchedState :=
  { newsData := [], totalGenerated := 0, errorCount := 0, progressStr := "", trace := [] }

/-- A whole orchestration run (`App.tsx` lines 34-132): plan-independent
scheduling of an already-computed chunk list, then the terminal handling —
the thrown error becomes the terminal state (`catch`, line 114, leaving
`progressStr` untouched), otherwise the post-loop `stopRef.current` read
picks the stopped/completed message (lines 108-112). -/
def runSequence (env : Env) (chunks : List Chunk) : SchedState × Terminal :=
  let totalBatches := (chunks.length + CONCURRENCY - 1) / CONCURRENCY
  match schedLoop env totalBatches (toWindows chunks) 0 0 initState with
  | (st, _, some e) => (st, Terminal.aborted e)
  | (st, wEnd, none) =>
    if env.stop wEnd then
      ({ st with progressStr := stoppedMsg st.totalGenerated st.errorCount }, Terminal.stopped)
    else
      ({ st with progressStr := completedMsg st.totalGenerated st.errorCount }, Terminal.completed)

/-! ## Characterization of the scheduler

The following functions compute, directly from the environment and the
window list, each component of the final state of `schedLoop`; the single
lemma `schedLoop_spec` proves the characterization.  They are proof-layer
descriptions of the loop above, not part of the embedding. -/

/-- The items appended by the results loop: successes in array order, cut
off at the first fatal failure (whose `throw` abandons the rest). -/
def appendedItems : List WrappedResult → List NewsItem
  | [] => []
  | .success items :: rest => items ++ appendedItems rest
  | .failure e :: rest => if isFatal e then [] else appendedItems rest

/-- Failures counted by the results loop, up to and including the first
fatal one. -/
def errsCount : List WrappedResult → ℕ
  | [] => 0
  | .success _ :: rest => errsCount rest
  | .failure e :: rest => 1 + if isFatal e then 0 else errsCount rest

/-- The first fatal error in a window's result array, if any — the error
the results loop throws. -/
def firstFatal : List WrappedResult → Option GenError
  | [] => none
  | .success _ :: rest => firstFatal rest
  | .failure e :: rest => if isFatal e then some e else firstFatal rest

/-- The items the whole loop appends, window by window. -/
def newsOf (env : Env) : List (List Chunk) → ℕ → ℕ → List NewsItem
  | [], _, _ => []
  | batch :: rest, b, w =>
    if env.stop w then []
    else
      let rs := wRes env b batch.length
      match firstFatal rs with
      | some _ => appendedItems rs
      | none => appendedItems rs ++ newsOf env rest (b + batch.length) (w + 1)

/-- The total failure count accumulated by the loop. -/
def errsOf (env : Env) : List (List Chunk) → ℕ → ℕ → ℕ
  | [], _, _ => 0
  | batch :: rest, b, w =>
    if env.stop w then 0
    else
      let rs := wRes env b batch.length
      match firstFatal rs with
      | some _ => errsCount rs
      | none => errsCount rs + errsOf env rest (b + batch.length) (w + 1)

/-- The error thrown out of the loop, if any. -/
def thrownOf (env : Env) : List (List Chunk) → ℕ → ℕ → Option GenError
  | [], _, _ => none
  | batch :: rest, b, w =>
    if env.stop w then none
    else
      match firstFatal (wRes env b batch.length) with
      | some e => some e
      | none => thrownOf env rest (b + batch.length) (w + 1)

/-- The dispatch/settle events emitted by the loop. -/
def traceOf (env : Env) : List (List Chunk) → ℕ → ℕ → List Ev
  | [], _, _ => []
  | batch :: rest, b, w =>
    if env.stop w then []
    else
      let evs := windowEvents b batch.length (env.settleSeq w)
      match firstFatal (wRes env b batch.length) with
      | some _ => evs
      | none => evs ++ traceOf env rest (b + batch.length) (w + 1)

/-- The window number at which the loop exits. -/
def wEndOf (env : Env) : List (List Chunk) → ℕ → ℕ → ℕ
  | [], _, w => w
  | batch :: rest, b, w =>
    if env.stop w then w
    else
      match firstFatal (wRes env b batch.length) with
      | some _ => w + 1
      | none => wEndOf env rest (b + batch.length) (w + 1)

/-- The progress message as left by the loop itself (before any terminal
message is written).  `tg`/`ec` are the totals entering the current window,
`cur` the message on screen entering it. -/
def progOf (env : Env) (totalBatches : ℕ) :
    List (List Chunk) → ℕ → ℕ → ℕ → ℕ → String → String
  | [], _, _, _, _, cur => cur
  | batch :: rest, b, w, tg, ec, cur =>
    if env.stop w then cur
    else
      let msg := batchMsg (w + 1) totalBatches batch.length tg ec
      let rs := wRes env b batch.length
      match firstFatal rs with
      | some _ => msg
      | none =>
        progOf env totalBatches rest (b + batch.length) (w + 1)
          (tg + (appendedItems rs).length) (ec + errsCount rs) msg

/-- The index of the first chunk of window `k` (the cumulative length of the
windows before it). -/
def wBase (ws : List (List Chunk)) (k : ℕ) : ℕ := ((ws.take k).map List.length).sum

/-- The number of chunks in window `k`. -/
def wLen (ws : List (List Chunk)) (k : ℕ) : ℕ := (ws.getD k []).length

/-- Window `k`'s `Promise.all` result array, in submission order. -/
def winResults (env : Env) (ws : List (List Chunk)) (k : ℕ) : List WrappedResult :=
  wRes env (wBase ws k) (wLen ws k)

def isDispatch : Ev → Bool
  | .dispatch _ => true
  | .settle _ => false

def isSettle : Ev → Bool
  | .dispatch _ => false
  | .settle _ => true

/-- Number of fetches dispatched in a trace prefix. -/
def dispCount (t : List Ev) : ℕ := t.countP isDispatch

/-- Number of fetches settled in a trace prefix. -/
def settleCount (t : List Ev) : ℕ := t.countP isSettle

/-- The chunk indices dispatched, in dispatch order. -/
def dispatchIdxs (t : List Ev) : List ℕ :=
  t.filterMap fun e => match e with | .dispatch i => some i | .settle _ => none

theorem processResults_spec (rs : List WrappedResult) (st : SchedState) :
    processResults rs st =
      ({ st with newsData := st.newsData ++ appendedItems rs,
                 totalGenerated := st.totalGenerated + (appendedItems rs).length,
                 errorCount := st.errorCount + errsCount rs },
       firstFatal rs) := by
  induction rs generalizing st with
  | nil => simp [processResults, appendedItems, errsCount, firstFatal]
  | cons r rest ih =>
    cases r with
    | success items =>
      simp [processResults, appendedItems, errsCount, firstFatal, ih,
        List.append_assoc, Nat.add_assoc]
    | failure e =>
      by_cases hf : isFatal e
      · simp [processResults, appendedItems, errsCount, firstFatal, hf]
      · simp [processResults, appendedItems, errsCount, firstFatal, hf, ih, Nat.add_assoc]

theorem schedLoop_spec (env : Env) (tb : ℕ) (ws : List (List Chunk))
    (b w : ℕ) (st : SchedState) :
    schedLoop env tb ws b w st =
      ({ newsData := st.newsData ++ newsOf env ws b w,
         totalGenerated := st.totalGenerated + (newsOf env ws b w).length,
         errorCount := st.errorCount + errsOf env ws b w,
         progressStr := progOf env tb ws b w st.totalGenerated st.errorCount st.progressStr,
         trace := st.trace ++ traceOf env ws b w },
       wEndOf env ws b w, thrownOf env ws b w) := by
  induction ws generalizing b w st with
  | nil => simp [schedLoop, newsOf, errsOf, progOf, traceOf, wEndOf, thrownOf]
  | cons batch rest ih =>
    by_cases hs : env.stop w
    · simp [schedLoop, newsOf, errsOf, progOf, traceOf, wEndOf, thrownOf, hs]
    · rcases hf : firstFatal (wRes env b batch.length) with _ | e
      · simp only [schedLoop, hs, Bool.false_eq_true, if_neg, ite_false,
          processResults_spec, hf, ih, newsOf, errsOf, progOf, traceOf, wEndOf, thrownOf]
        simp [List.append_assoc, Nat.add_assoc]
      · simp only [schedLoop, hs, Bool.false_eq_true, if_neg, ite_false,
          processResults_spec, hf, newsOf, errsOf, progOf, traceOf, wEndOf, thrownOf]

/-! ## Planner lemmas and claims C2, C4 -/

theorem chunkDays_ge (itemsPerDay : ℚ) : (5:ℤ) ≤ chunkDays itemsPerDay :=
  le_max_left _ _

theorem planGo_nonpos {itemsPerDay : ℚ} (h2 : itemsPerDay ≤ 0) (finalDate : ℤ) :
    ∀ (fuel : ℕ) (cur : ℤ), planGo itemsPerDay finalDate fuel cur = [] := by
  intro fuel
  induction fuel with
  | zero => intro cur; simp [planGo]
  | succ fuel ih =>
    intro cur
    by_cases hc : cur < finalDate
    · have h5 := chunkDays_ge itemsPerDay
      have hdays : (0:ℤ) ≤ min (cur + chunkDays itemsPerDay) finalDate - cur := by omega
      have hmul : ((min (cur + chunkDays itemsPerDay) finalDate - cur : ℤ) : ℚ) * itemsPerDay ≤ 0 := by
        have hnn : (0:ℚ) ≤ ((min (cur + chunkDays itemsPerDay) finalDate - cur : ℤ) : ℚ) := by
          exact_mod_cast hdays
        calc ((min (cur + chunkDays itemsPerDay) finalDate - cur : ℤ) : ℚ) * itemsPerDay
            ≤ ((min (cur + chunkDays itemsPerDay) finalDate - cur : ℤ) : ℚ) * 0 :=
              mul_le_mul_of_nonneg_left h2 hnn
          _ = 0 := mul_zero _
      have hceil : Int.ceil (((min (cur + chunkDays itemsPerDay) finalDate - cur : ℤ) : ℚ) * itemsPerDay) ≤ 0 := by
        rw [Int.ceil_le]
        exact_mod_cast hmul
      simp only [planGo, if_pos hc]
      rw [if_neg (by omega)]
      simpa using ih _
    · simp [planGo, hc]

theorem planGo_fuel (itemsPerDay : ℚ) (finalDate : ℤ) :
    ∀ (f1 f2 : ℕ) (cur : ℤ), (finalDate - cur).toNat ≤ f1 → (finalDate - cur).toNat ≤ f2 →
      planGo itemsPerDay finalDate f1 cur = planGo itemsPerDay finalDate f2 cur := by
  intro f1
  induction f1 with
  | zero =>
    intro f2 cur h1 h2
    have hc : ¬ cur < finalDate := by omega
    cases f2 with
    | zero => rfl
    | succ f2 => simp [planGo, hc]
  | succ f1 ih =>
    intro f2 cur h1 h2
    cases f2 with
    | zero =>
      have hc : ¬ cur < finalDate := by omega
      simp [planGo, hc]
    | succ f2 =>
      by_cases hc : cur < finalDate
      · have h5 := chunkDays_ge itemsPerDay
        simp only [planGo, if_pos hc]
        rw [ih f2 (min (cur + chunkDays itemsPerDay) finalDate) (by omega) (by omega)]
      · simp [planGo, hc]

theorem planGo_spec {itemsPerDay : ℚ} (h2 : 0 < itemsPerDay) (finalDate : ℤ) :
    ∀ (fuel : ℕ) (cur : ℤ), cur ≤ finalDate → (finalDate - cur).toNat ≤ fuel →
      chainFrom cur finalDate (planGo itemsPerDay finalDate fuel cur) ∧
      ∀ c ∈ planGo itemsPerDay finalDate fuel cur, 1 ≤ c.count := by
  intro fuel
  induction fuel with
  | zero =>
    intro cur h1 hf
    have : cur = finalDate := by omega
    subst this
    simp [planGo, chainFrom]
  | succ fuel ih =>
    intro cur h1 hf
    by_cases hc : cur < finalDate
    · have h5 := chunkDays_ge itemsPerDay
      have hd1 : (1:ℤ) ≤ min (cur + chunkDays itemsPerDay) finalDate - cur := by omega
      have hpos : (0:ℤ) < Int.ceil (((min (cur + chunkDays itemsPerDay) finalDate - cur : ℤ) : ℚ) * itemsPerDay) := by
        rw [Int.ceil_pos]
        have hq : (0:ℚ) < ((min (cur + chunkDays itemsPerDay) finalDate - cur : ℤ) : ℚ) := by
          exact_mod_cast lt_of_lt_of_le Int.zero_lt_one hd1
        exact mul_pos hq h2
      obtain ⟨ihc, ihm⟩ := ih (min (cur + chunkDays itemsPerDay) finalDate)
        (min_le_right _ _) (by omega)
      simp only [planGo, if_pos hc]
      rw [if_pos hpos]
      constructor
      · refine ⟨rfl, ?_, ihc⟩
        show cur < min (cur + chunkDays itemsPerDay) finalDate
        omega
      · intro c hm
        rcases List.mem_cons.1 hm with rfl | hm
        · exact hpos
        · exact ihm c hm
    · have : cur = finalDate := by omega
      subst this
      simp [planGo, chainFrom, hc]

/-- Claim C2. For every valid input (`start ≤ end`, density > 0), the chunk
list produced by the planner consists of contiguous, non-overlapping date
sub-ranges whose union is exactly the requested range (this is what
`chainFrom` states), each emitted chunk has `targetCount ≥ 1`, and an empty
range (`start = end`) yields an empty chunk list. -/
theorem planChunks_covers_range (startDate finalDate : ℤ) (itemsPerDay : ℚ)
    (h1 : startDate ≤ finalDate) (h2 : 0 < itemsPerDay) :
    chainFrom startDate finalDate (planChunks startDate finalDate itemsPerDay) ∧
    (∀ c ∈ planChunks startDate finalDate itemsPerDay, 1 ≤ c.count) ∧
    (startDate = finalDate → planChunks startDate finalDate itemsPerDay = []) := by
  obtain ⟨hch, hm⟩ := planGo_spec h2 finalDate (finalDate - startDate).toNat startDate h1 le_rfl
  refine ⟨hch, hm, ?_⟩
  intro he
  subst he
  simp [planChunks, planGo]

theorem planChunks_covers_range_witness :
    chainFrom 0 10 (planChunks 0 10 1) ∧
    (∀ c ∈ planChunks 0 10 1, 1 ≤ c.count) ∧
    ((0:ℤ) = 10 → planChunks 0 10 1 = []) :=
  planChunks_covers_range 0 10 1 (by decide) (by decide)

/-- Claim C4 is false as stated: with density 0 (≤ 0) and the non-empty range
`0 < 10` the planner produces no chunk at all — `planChunks 0 10 0 = []` —
because the `max(0.1, density)` clamp is applied only when sizing
`chunkDays`, while each chunk's `count = ceil(days × density)` uses the
unclamped density, so every candidate chunk is dropped by the
`count > 0` guard. -/
theorem planChunks_nonpos_density_cex :
    (0:ℤ) < 10 ∧ (0:ℚ) ≤ 0 ∧ planChunks 0 10 0 = [] :=
  ⟨by decide, le_refl 0, planGo_nonpos (le_refl 0) 10 _ 0⟩

/-- Claim C4, amended. For every non-empty range (`start < end`) and every
density ≤ 0, the planner terminates — every sufficient fuel value yields
the same output, i.e. the source's `while` loop exits after finitely many
iterations — but produces an *empty* chunk list (not `≥ 1` chunk): the 0.1
clamp only affects `chunkDays`, and the unclamped density makes every
candidate chunk's `count ≤ 0`, so all are dropped. -/
theorem planChunks_nonpos_density (startDate finalDate : ℤ) (itemsPerDay : ℚ)
    (_h1 : startDate < finalDate) (h2 : itemsPerDay ≤ 0) :
    planChunks startDate finalDate itemsPerDay = [] ∧
    ∀ fuel, (finalDate - startDate).toNat ≤ fuel →
      planGo itemsPerDay finalDate fuel startDate = planChunks startDate finalDate itemsPerDay :=
  ⟨planGo_nonpos h2 finalDate _ startDate,
   fun _ hf => planGo_fuel itemsPerDay finalDate _ _ startDate hf le_rfl⟩

theorem planChunks_nonpos_density_witness :
    planChunks 0 10 0 = [] ∧
    ∀ fuel, ((10:ℤ) - 0).toNat ≤ fuel → planGo 0 10 fuel 0 = planChunks 0 10 0 :=
  planChunks_nonpos_density 0 10 0 (by decide) (le_refl 0)

/-! ## Claim C9: idempotent removal -/

/-- Claim C9. For every accumulator state and every id, `remove(id)`
(`handleDelete`) is idempotent — applying it twice yields the same state as
applying it once — and removing an absent id leaves the state unchanged
(a no-op, not an error; the model is a total function, mirroring that
`Array.prototype.filter` never throws). -/
theorem handleDelete_idempotent (l : List NewsItem) (id : String) :
    handleDelete (handleDelete l id) id = handleDelete l id ∧
    ((∀ x ∈ l, x.id ≠ id) → handleDelete l id = l) := by
  constructor
  · simp [handleDelete, List.filter_filter]
  · intro h
    rw [handleDelete, List.filter_eq_self]
    intro a ha
    simpa using h a ha

theorem handleDelete_idempotent_witness :
    handleDelete (handleDelete [⟨"A", "t", "x", "s", "T"⟩] "Z") "Z" =
      handleDelete [⟨"A", "t", "x", "s", "T"⟩] "Z" ∧
    handleDelete [⟨"A", "t", "x", "s", "T"⟩] "Z" = [⟨"A", "t", "x", "s", "T"⟩] :=
  ⟨(handleDelete_idempotent [⟨"A", "t", "x", "s", "T"⟩] "Z").1,
   (handleDelete_idempotent [⟨"A", "t", "x", "s", "T"⟩] "Z").2 (by decide)⟩

/-! ## Claim C10: retry policy of the fetch capability -/

/-- Claim C10. For every invocation of the fetch capability: a missing API
key is thrown immediately (0 attempts, no backoff) with a message that
itself contains "API Key"; an attempt failing with an error whose message
contains "API Key" is rethrown immediately — the total attempt count is
exactly that attempt's index + 1 and no further backoff is slept; any
other (transient) error is retried with exponential backoff
(1000·2^(attempt) ms after the `attempt`-th failure, i.e. 2000 then 4000)
up to `MAX_RETRIES = 3` total attempts, a success on a later attempt being
returned normally, and the error is propagated to the caller only when the
third attempt also fails. -/
theorem fetch_retry_policy (key : String) (hkey : key ≠ "")
    (oracle : ℕ → Except GenError (List NewsItem)) :
    (fetchESGNews none oracle =
        (.error ⟨"API Key is missing. Please select a paid API key."⟩, 0, []) ∧
      strContains "API Key is missing. Please select a paid API key." "API Key" = true) ∧
    (∀ k e, k < MAX_RETRIES →
      (∀ j, j < k → ∃ ej, oracle j = .error ej ∧ strContains ej.message "API Key" = false) →
      oracle k = .error e → strContains e.message "API Key" = true →
      fetchESGNews (some key) oracle =
        (.error e, k + 1, (List.range k).map fun j => 1000 * 2 ^ (j + 1))) ∧
    (∀ k items, k < MAX_RETRIES →
      (∀ j, j < k → ∃ ej, oracle j = .error ej ∧ strContains ej.message "API Key" = false) →
      oracle k = .ok items →
      fetchESGNews (some key) oracle =
        (.ok items, k + 1, (List.range k).map fun j => 1000 * 2 ^ (j + 1))) ∧
    (∀ es : ℕ → GenError,
      (∀ j, j < MAX_RETRIES →
        oracle j = .error (es j) ∧ strContains (es j).message "API Key" = false) →
      fetchESGNews (some key) oracle = (.error (es 2), MAX_RETRIES, [2000, 4000])) := by
  refine ⟨⟨rfl, by decide⟩, ?_, ?_, ?_⟩
  · intro k e hk hbef hke hfat
    have hk3 : k < 3 := hk
    interval_cases k
    · simp [fetchESGNews, hkey, MAX_RETRIES, retryGo, hke, hfat]
    · obtain ⟨e0, he0, hn0⟩ := hbef 0 (by omega)
      simp [fetchESGNews, hkey, MAX_RETRIES, retryGo, he0, hn0, hke, hfat, List.range_succ]
    · obtain ⟨e0, he0, hn0⟩ := hbef 0 (by omega)
      obtain ⟨e1, he1, hn1⟩ := hbef 1 (by omega)
      simp [fetchESGNews, hkey, MAX_RETRIES, retryGo, he0, hn0, he1, hn1, hke, hfat,
        List.range_succ]
  · intro k items hk hbef hke
    have hk3 : k < 3 := hk
    interval_cases k
    · simp [fetchESGNews, hkey, MAX_RETRIES, retryGo, hke]
    · obtain ⟨e0, he0, hn0⟩ := hbef 0 (by omega)
      simp [fetchESGNews, hkey, MAX_RETRIES, retryGo, he0, hn0, hke, List.range_succ]
    · obtain ⟨e0, he0, hn0⟩ := hbef 0 (by omega)
      obtain ⟨e1, he1, hn1⟩ := hbef 1 (by omega)
      simp [fetchESGNews, hkey, MAX_RETRIES, retryGo, he0, hn0, he1, hn1, hke, List.range_succ]
  · intro es hall
    obtain ⟨he0, hn0⟩ := hall 0 (by decide)
    obtain ⟨he1, hn1⟩ := hall 1 (by decide)
    obtain ⟨he2, hn2⟩ := hall 2 (by decide)
    simp [fetchESGNews, hkey, MAX_RETRIES, retryGo, he0, hn0, he1, hn1, he2, hn2]

theorem fetch_retry_policy_witness :
    fetchESGNews (some "K") (fun _ => .error ⟨"rate limit"⟩) =
      (.error ⟨"rate limit"⟩, MAX_RETRIES, [2000, 4000]) :=
  (fetch_retry_policy "K" (by decide) (fun _ => .error ⟨"rate limit"⟩)).2.2.2
    (fun _ => ⟨"rate limit"⟩)
    (by
      intro j hj
      refine ⟨rfl, ?_⟩
      show strContains (GenError.mk "rate limit").message "API Key" = false
      decide)

theorem wBase_zero (ws : List (List Chunk)) : wBase ws 0 = 0 := by simp [wBase]

theorem wBase_cons_succ (batch : List Chunk) (rest : List (List Chunk)) (k : ℕ) :
    wBase (batch :: rest) (k + 1) = batch.length + wBase rest k := by
  simp [wBase, List.take_succ_cons]

theorem wLen_cons_zero (batch : List Chunk) (rest : List (List Chunk)) :
    wLen (batch :: rest) 0 = batch.length := rfl

theorem wLen_cons_succ (batch : List Chunk) (rest : List (List Chunk)) (k : ℕ) :
    wLen (batch :: rest) (k + 1) = wLen rest k := by
  simp [wLen, List.getD_cons_succ]

theorem runSequence_eq (env : Env) (chunks : List Chunk) :
    runSequence env chunks =
      (let ws := toWindows chunks
       let tb := (chunks.length + CONCURRENCY - 1) / CONCURRENCY
       let st : SchedState :=
         { newsData := newsOf env ws 0 0,
           totalGenerated := (newsOf env ws 0 0).length,
           errorCount := errsOf env ws 0 0,
           progressStr := progOf env tb ws 0 0 0 0 "",
           trace := traceOf env ws 0 0 }
       match thrownOf env ws 0 0 with
       | some e => (st, Terminal.aborted e)
       | none =>
         if env.stop (wEndOf env ws 0 0) then
           ({ st with progressStr := stoppedMsg st.totalGenerated st.errorCount },
            Terminal.stopped)
         else
           ({ st with progressStr := completedMsg st.totalGenerated st.errorCount },
            Terminal.completed)) := by
  simp only [runSequence, schedLoop_spec]
  rcases h : thrownOf env (toWindows chunks) 0 0 with _ | e <;>
    simp [initState, h]

theorem thrownOf_fatal (env : Env) :
    ∀ (ws : List (List Chunk)) (b w k : ℕ) (e : GenError),
      (∀ n, env.stop n = false) →
      k < ws.length →
      (∀ i, i < k → firstFatal (wRes env (b + wBase ws i) (wLen ws i)) = none) →
      firstFatal (wRes env (b + wBase ws k) (wLen ws k)) = some e →
      thrownOf env ws b w = some e := by
  intro ws
  induction ws with
  | nil => intro b w k e _ hk; exact absurd hk (by simp)
  | cons batch rest ih =>
    intro b w k e hstop hk hbef hfat
    cases k with
    | zero =>
      rw [wBase_zero, Nat.add_zero, wLen_cons_zero] at hfat
      simp [thrownOf, hstop w, hfat]
    | succ k =>
      have h0 := hbef 0 (Nat.succ_pos k)
      rw [wBase_zero, Nat.add_zero, wLen_cons_zero] at h0
      rw [wBase_cons_succ, wLen_cons_succ] at hfat
      simp only [thrownOf, hstop w, Bool.false_eq_true, if_false, h0]
      refine ih (b + batch.length) (w + 1) k e hstop (by simpa using hk) ?_
        (by rw [Nat.add_assoc]; exact hfat)
      intro i hi
      have := hbef (i + 1) (by omega)
      rw [wBase_cons_succ, wLen_cons_succ] at this
      rw [Nat.add_assoc]
      exact this

theorem flatten_map_range_succ {α : Type} (f : ℕ → List α) (n : ℕ) :
    ((List.range (n + 1)).map f).flatten =
      f 0 ++ ((List.range n).map fun i => f (i + 1)).flatten := by
  rw [List.range_succ_eq_map]
  simp [List.map_map, Function.comp_def, Nat.succ_eq_add_one]

theorem sum_map_range_succ (f : ℕ → ℕ) (n : ℕ) :
    ((List.range (n + 1)).map f).sum = f 0 + ((List.range n).map fun i => f (i + 1)).sum := by
  rw [List.range_succ_eq_map]
  simp [List.map_map, Function.comp_def, Nat.succ_eq_add_one]

theorem newsOf_fatal (env : Env) :
    ∀ (ws : List (List Chunk)) (b w k : ℕ) (e : GenError),
      (∀ n, env.stop n = false) →
      k < ws.length →
      (∀ i, i < k → firstFatal (wRes env (b + wBase ws i) (wLen ws i)) = none) →
      firstFatal (wRes env (b + wBase ws k) (wLen ws k)) = some e →
      newsOf env ws b w =
        ((List.range (k + 1)).map fun i =>
          appendedItems (wRes env (b + wBase ws i) (wLen ws i))).flatten := by
  intro ws
  induction ws with
  | nil => intro b w k e _ hk; exact absurd hk (by simp)
  | cons batch rest ih =>
    intro b w k e hstop hk hbef hfat
    cases k with
    | zero =>
      rw [wBase_zero, Nat.add_zero, wLen_cons_zero] at hfat
      simp [newsOf, hstop w, hfat, wBase_zero, wLen_cons_zero, List.range_succ]
    | succ k =>
      have h0 := hbef 0 (Nat.succ_pos k)
      rw [wBase_zero, Nat.add_zero, wLen_cons_zero] at h0
      have hbef' : ∀ i, i < k →
          firstFatal (wRes env (b + batch.length + wBase rest i) (wLen rest i)) = none := by
        intro i hi
        have := hbef (i + 1) (by omega)
        rw [wBase_cons_succ, wLen_cons_succ] at this
        rw [Nat.add_assoc]
        exact this
      have hfat' : firstFatal (wRes env (b + batch.length + wBase rest k) (wLen rest k)) = some e := by
        rw [wBase_cons_succ, wLen_cons_succ] at hfat
        rw [Nat.add_assoc]
        exact hfat
      have ihh := ih (b + batch.length) (w + 1) k e hstop (by simpa using hk) hbef' hfat'
      simp only [newsOf, hstop w, Bool.false_eq_true, if_false, h0, ihh]
      conv_rhs => rw [flatten_map_range_succ]
      simp [wBase_zero, wLen_cons_zero, wBase_cons_succ, wLen_cons_succ, Nat.add_assoc]

theorem errsOf_fatal (env : Env) :
    ∀ (ws : List (List Chunk)) (b w k : ℕ) (e : GenError),
      (∀ n, env.stop n = false) →
      k < ws.length →
      (∀ i, i < k → firstFatal (wRes env (b + wBase ws i) (wLen ws i)) = none) →
      firstFatal (wRes env (b + wBase ws k) (wLen ws k)) = some e →
      errsOf env ws b w =
        ((List.range k).map fun i => errsCount (wRes env (b + wBase ws i) (wLen ws i))).sum
          + errsCount (wRes env (b + wBase ws k) (wLen ws k)) := by
  intro ws
  induction ws with
  | nil => intro b w k e _ hk; exact absurd hk (by simp)
  | cons batch rest ih =>
    intro b w k e hstop hk hbef hfat
    cases k with
    | zero =>
      rw [wBase_zero, Nat.add_zero, wLen_cons_zero] at hfat
      simp [errsOf, hstop w, hfat, wBase_zero, wLen_cons_zero]
    | succ k =>
      have h0 := hbef 0 (Nat.succ_pos k)
      rw [wBase_zero, Nat.add_zero, wLen_cons_zero] at h0
      have hbef' : ∀ i, i < k →
          firstFatal (wRes env (b + batch.length + wBase rest i) (wLen rest i)) = none := by
        intro i hi
        have := hbef (i + 1) (by omega)
        rw [wBase_cons_succ, wLen_cons_succ] at this
        rw [Nat.add_assoc]
        exact this
      have hfat' : firstFatal (wRes env (b + batch.length + wBase rest k) (wLen rest k)) = some e := by
        rw [wBase_cons_succ, wLen_cons_succ] at hfat
        rw [Nat.add_assoc]
        exact hfat
      have ihh := ih (b + batch.length) (w + 1) k e hstop (by simpa using hk) hbef' hfat'
      simp only [errsOf, hstop w, Bool.false_eq_true, if_false, h0, ihh]
      conv_rhs => rw [sum_map_range_succ]
      simp [wBase_zero, wLen_cons_zero, wBase_cons_succ, wLen_cons_succ, Nat.add_assoc]

theorem traceOf_fatal (env : Env) :
    ∀ (ws : List (List Chunk)) (b w k : ℕ) (e : GenError),
      (∀ n, env.stop n = false) →
      k < ws.length →
      (∀ i, i < k → firstFatal (wRes env (b + wBase ws i) (wLen ws i)) = none) →
      firstFatal (wRes env (b + wBase ws k) (wLen ws k)) = some e →
      traceOf env ws b w =
        ((List.range (k + 1)).map fun i =>
          windowEvents (b + wBase ws i) (wLen ws i) (env.settleSeq (w + i))).flatten := by
  intro ws
  induction ws with
  | nil => intro b w k e _ hk; exact absurd hk (by simp)
  | cons batch rest ih =>
    intro b w k e hstop hk hbef hfat
    cases k with
    | zero =>
      rw [wBase_zero, Nat.add_zero, wLen_cons_zero] at hfat
      simp [traceOf, hstop w, hfat, wBase_zero, wLen_cons_zero, List.range_succ]
    | succ k =>
      have h0 := hbef 0 (Nat.succ_pos k)
      rw [wBase_zero, Nat.add_zero, wLen_cons_zero] at h0
      have hbef' : ∀ i, i < k →
          firstFatal (wRes env (b + batch.length + wBase rest i) (wLen rest i)) = none := by
        intro i hi
        have := hbef (i + 1) (by omega)
        rw [wBase_cons_succ, wLen_cons_succ] at this
        rw [Nat.add_assoc]
        exact this
      have hfat' : firstFatal (wRes env (b + batch.length + wBase rest k) (wLen rest k)) = some e := by
        rw [wBase_cons_succ, wLen_cons_succ] at hfat
        rw [Nat.add_assoc]
        exact hfat
      have ihh := ih (b + batch.length) (w + 1) k e hstop (by simpa using hk) hbef' hfat'
      simp only [traceOf, hstop w, Bool.false_eq_true, if_false, h0, ihh]
      conv_rhs => rw [flatten_map_range_succ]
      simp [wBase_zero, wLen_cons_zero, wBase_cons_succ, wLen_cons_succ, Nat.add_assoc,
        Nat.add_comm, Nat.add_left_comm]

theorem progOf_fatal (env : Env) (tb : ℕ) :
    ∀ (ws : List (List Chunk)) (b w k : ℕ) (e : GenError) (tg ec : ℕ) (cur : String),
      (∀ n, env.stop n = false) →
      k < ws.length →
      (∀ i, i < k → firstFatal (wRes env (b + wBase ws i) (wLen ws i)) = none) →
      firstFatal (wRes env (b + wBase ws k) (wLen ws k)) = some e →
      progOf env tb ws b w tg ec cur =
        batchMsg (w + k + 1) tb (wLen ws k)
          (tg + (((List.range k).map fun i =>
            appendedItems (wRes env (b + wBase ws i) (wLen ws i))).flatten).length)
          (ec + ((List.range k).map fun i =>
            errsCount (wRes env (b + wBase ws i) (wLen ws i))).sum) := by
  intro ws
  induction ws with
  | nil => intro b w k e tg ec cur _ hk; exact absurd hk (by simp)
  | cons batch rest ih =>
    intro b w k e tg ec cur hstop hk hbef hfat
    cases k with
    | zero =>
      rw [wBase_zero, Nat.add_zero, wLen_cons_zero] at hfat
      simp [progOf, hstop w, hfat, wLen_cons_zero]
    | succ k =>
      have h0 := hbef 0 (Nat.succ_pos k)
      rw [wBase_zero, Nat.add_zero, wLen_cons_zero] at h0
      have hbef' : ∀ i, i < k →
          firstFatal (wRes env (b + batch.length + wBase rest i) (wLen rest i)) = none := by
        intro i hi
        have := hbef (i + 1) (by omega)
        rw [wBase_cons_succ, wLen_cons_succ] at this
        rw [Nat.add_assoc]
        exact this
      have hfat' : firstFatal (wRes env (b + batch.length + wBase rest k) (wLen rest k)) = some e := by
        rw [wBase_cons_succ, wLen_cons_succ] at hfat
        rw [Nat.add_assoc]
        exact hfat
      have ihh := ih (b + batch.length) (w + 1) k e
        (tg + (appendedItems (wRes env b batch.length)).length)
        (ec + errsCount (wRes env b batch.length))
        (batchMsg (w + 1) tb batch.length tg ec) hstop (by simpa using hk) hbef' hfat'
      simp only [progOf, hstop w, Bool.false_eq_true, if_false, h0, ihh]
      conv_rhs => rw [flatten_map_range_succ, sum_map_range_succ]
      simp [wBase_zero, wLen_cons_zero, wBase_cons_succ, wLen_cons_succ, Nat.add_assoc,
        Nat.add_comm, Nat.add_left_comm]

theorem wBase_succ_eq (ws : List (List Chunk)) :
    ∀ k, k < ws.length → wBase ws (k + 1) = wBase ws k + wLen ws k := by
  induction ws with
  | nil => simp
  | cons batch rest ih =>
    intro k hk
    cases k with
    | zero =>
      rw [wBase_cons_succ, wBase_zero, wBase_zero, wLen_cons_zero]
      omega
    | succ k =>
      rw [wBase_cons_succ, wBase_cons_succ, wLen_cons_succ, ih k (by simpa using hk)]
      omega

theorem wBase_mono (ws : List (List Chunk)) : ∀ {i j : ℕ}, i ≤ j → wBase ws i ≤ wBase ws j := by
  induction ws with
  | nil => intro i j _; simp [wBase]
  | cons batch rest ih =>
    intro i j h
    cases i with
    | zero => rw [wBase_zero]; exact Nat.zero_le _
    | succ i =>
      cases j with
      | zero => omega
      | succ j =>
        rw [wBase_cons_succ, wBase_cons_succ]
        exact Nat.add_le_add_left (ih (by omega)) _

theorem dispatch_mem_windowEvents {i b k : ℕ} {s : List ℕ}
    (h : Ev.dispatch i ∈ windowEvents b k s) : b ≤ i ∧ i < b + k := by
  rcases List.mem_append.1 h with h | h
  · rcases List.mem_map.1 h with ⟨j, hj, hji⟩
    have hji' : b + j = i := Ev.dispatch.inj hji
    have hj' := List.mem_range.1 hj
    omega
  · rcases List.mem_map.1 h with ⟨j, _, hji⟩
    exact absurd hji (by simp)

theorem runSequence_state (env : Env) (chunks : List Chunk) :
    (runSequence env chunks).1.newsData = newsOf env (toWindows chunks) 0 0 ∧
    (runSequence env chunks).1.totalGenerated = (newsOf env (toWindows chunks) 0 0).length ∧
    (runSequence env chunks).1.errorCount = errsOf env (toWindows chunks) 0 0 ∧
    (runSequence env chunks).1.trace = traceOf env (toWindows chunks) 0 0 := by
  rw [runSequence_eq]
  rcases h : thrownOf env (toWindows chunks) 0 0 with _ | e
  · by_cases hs : env.stop (wEndOf env (toWindows chunks) 0 0) <;> simp [h, hs]
  · simp [h]

/-- Claim C1 is false as stated.  One window of two chunks: chunk 0's fetch
fails with a fatal ("API Key") error, chunk 1's fetch succeeds with one
item.  Both promises were awaited by the window's `Promise.all`, yet the
final accumulator is empty: the results loop throws at chunk 0's entry and
never examines chunk 1's success, so a sibling success is *not* appended
when it sits after the first fatal result in submission order (the run
does terminate with that error, as the claim says). -/
theorem run_fatal_abort_cex :
    (runSequence
        { outcome := fun i => if i = 0 then .failure ⟨"Invalid API Key"⟩
            else .success [⟨"A", "t", "x", "s", "T"⟩],
          settleSeq := fun _ => [0, 1],
          stop := fun _ => false }
        [⟨0, 5, 5⟩, ⟨0, 5, 5⟩]).1.newsData = [] ∧
    (runSequence
        { outcome := fun i => if i = 0 then .failure ⟨"Invalid API Key"⟩
            else .success [⟨"A", "t", "x", "s", "T"⟩],
          settleSeq := fun _ => [0, 1],
          stop := fun _ => false }
        [⟨0, 5, 5⟩, ⟨0, 5, 5⟩]).2 = Terminal.aborted ⟨"Invalid API Key"⟩ ∧
    ([⟨"A", "t", "x", "s", "T"⟩] : List NewsItem) ≠ [] :=
  ⟨by decide, by decide, by decide⟩

/-- Claim C1, amended.  With no cancellation, if every window before `k` is
fatal-free and window `k`'s result array contains a fatal (API-key) error
`e`, then the run terminates with `e` as its terminal state, no window
after `k` is ever dispatched (every dispatched chunk index is below the
end of window `k`), and the accumulator holds exactly the per-window
appends in which window `k` contributes only the successes placed *before*
the first fatal result in submission order (`appendedItems` cuts there):
sibling successes after the fatal result were awaited by the window's
fan-in but are discarded, not retained as the claim states. -/
theorem run_fatal_abort_spec (env : Env) (chunks : List Chunk) (k : ℕ) (e : GenError)
    (hstop : ∀ n, env.stop n = false)
    (hk : k < (toWindows chunks).length)
    (hbef : ∀ i, i < k → firstFatal (winResults env (toWindows chunks) i) = none)
    (hfat : firstFatal (winResults env (toWindows chunks) k) = some e) :
    (runSequence env chunks).2 = Terminal.aborted e ∧
    (runSequence env chunks).1.newsData =
      ((List.range (k + 1)).map fun i =>
        appendedItems (winResults env (toWindows chunks) i)).flatten ∧
    ∀ i, Ev.dispatch i ∈ (runSequence env chunks).1.trace →
      i < wBase (toWindows chunks) (k + 1) := by
  have hbef' : ∀ i, i < k →
      firstFatal (wRes env (0 + wBase (toWindows chunks) i) (wLen (toWindows chunks) i)) = none := by
    intro i hi
    simpa [winResults] using hbef i hi
  have hfat' :
      firstFatal (wRes env (0 + wBase (toWindows chunks) k) (wLen (toWindows chunks) k)) = some e := by
    simpa [winResults] using hfat
  have ht := thrownOf_fatal env (toWindows chunks) 0 0 k e hstop hk hbef' hfat'
  have hn := newsOf_fatal env (toWindows chunks) 0 0 k e hstop hk hbef' hfat'
  have htr := traceOf_fatal env (toWindows chunks) 0 0 k e hstop hk hbef' hfat'
  obtain ⟨hnews, _, _, htrace⟩ := runSequence_state env chunks
  refine ⟨?_, ?_, ?_⟩
  · rw [runSequence_eq]
    simp [ht]
  · rw [hnews, hn]
    simp [winResults]
  · intro i hi
    rw [htrace, htr] at hi
    rcases List.mem_flatten.1 hi with ⟨bl, hbl, hibl⟩
    rcases List.mem_map.1 hbl with ⟨j, hj, rfl⟩
    have hj' := List.mem_range.1 hj
    obtain ⟨-, hlt⟩ := dispatch_mem_windowEvents hibl
    have hsucc := wBase_succ_eq (toWindows chunks) j (by omega)
    have hmono : wBase (toWindows chunks) (j + 1) ≤ wBase (toWindows chunks) (k + 1) :=
      wBase_mono _ (by omega)
    omega

theorem run_fatal_abort_spec_witness :
    (runSequence
        { outcome := fun i => if i = 0 then .failure ⟨"Invalid API Key"⟩
            else .success [⟨"A", "t", "x", "s", "T"⟩],
          settleSeq := fun _ => [0, 1],
          stop := fun _ => false }
        [⟨0, 5, 5⟩, ⟨0, 5, 5⟩]).2 = Terminal.aborted ⟨"Invalid API Key"⟩ ∧
    (runSequence
        { outcome := fun i => if i = 0 then .failure ⟨"Invalid API Key"⟩
            else .success [⟨"A", "t", "x", "s", "T"⟩],
          settleSeq := fun _ => [0, 1],
          stop := fun _ => false }
        [⟨0, 5, 5⟩, ⟨0, 5, 5⟩]).1.newsData =
      ((List.range 1).map fun i =>
        appendedItems (winResults
          { outcome := fun i => if i = 0 then .failure ⟨"Invalid API Key"⟩
              else .success [⟨"A", "t", "x", "s", "T"⟩],
            settleSeq := fun _ => [0, 1],
            stop := fun _ => false }
          (toWindows [⟨0, 5, 5⟩, ⟨0, 5, 5⟩]) i)).flatten ∧
    ∀ i, Ev.dispatch i ∈ (runSequence
        { outcome := fun i => if i = 0 then .failure ⟨"Invalid API Key"⟩
            else .success [⟨"A", "t", "x", "s", "T"⟩],
          settleSeq := fun _ => [0, 1],
          stop := fun _ => false }
        [⟨0, 5, 5⟩, ⟨0, 5, 5⟩]).1.trace →
      i < wBase (toWindows [⟨0, 5, 5⟩, ⟨0, 5, 5⟩]) 1 :=
  run_fatal_abort_spec
    { outcome := fun i => if i = 0 then .failure ⟨"Invalid API Key"⟩
        else .success [⟨"A", "t", "x", "s", "T"⟩],
      settleSeq := fun _ => [0, 1],
      stop := fun _ => false }
    [⟨0, 5, 5⟩, ⟨0, 5, 5⟩] 0 ⟨"Invalid API Key"⟩
    (fun _ => rfl) (by decide) (fun i hi => absurd hi (Nat.not_lt_zero i)) (by decide)

theorem errsCount_pos_of_firstFatal {rs : List WrappedResult} {e : GenError}
    (h : firstFatal rs = some e) : 1 ≤ errsCount rs := by
  induction rs with
  | nil => simp [firstFatal] at h
  | cons r rest ih =>
    cases r with
    | success items =>
      simp only [firstFatal] at h
      simpa [errsCount] using ih h
    | failure e' =>
      simp [errsCount]

/-- Claim C8 is false as stated.  A run aborted by a fatal error in its only
window: the terminal `progressStr` is still the in-progress "Batch …
Crawling …" message showing the totals from *before* the window — it says
"Errors: 0" although one chunk failed (`errorCount = 1`) and contains
neither "Stopped" nor "Completed" nor any abort marker; so the terminal
progress message reports neither the final failed count nor which of the
three outcomes occurred (the error travels separately through the `error`
state set in the `catch` block). -/
theorem terminal_progress_message_cex :
    (runSequence
        { outcome := fun _ => .failure ⟨"bad API Key"⟩,
          settleSeq := fun _ => [0], stop := fun _ => false }
        [⟨0, 5, 5⟩]).2 = Terminal.aborted ⟨"bad API Key"⟩ ∧
    (runSequence
        { outcome := fun _ => .failure ⟨"bad API Key"⟩,
          settleSeq := fun _ => [0], stop := fun _ => false }
        [⟨0, 5, 5⟩]).1.progressStr =
      "Batch 1/1: Crawling 1 parallel segments... | Total: 0 | Errors: 0" ∧
    (runSequence
        { outcome := fun _ => .failure ⟨"bad API Key"⟩,
          settleSeq := fun _ => [0], stop := fun _ => false }
        [⟨0, 5, 5⟩]).1.errorCount = 1 ∧
    strContains
      (runSequence
        { outcome := fun _ => .failure ⟨"bad API Key"⟩,
          settleSeq := fun _ => [0], stop := fun _ => false }
        [⟨0, 5, 5⟩]).1.progressStr "Errors: 1" = false :=
  ⟨by decide, by decide, by decide, by decide⟩

/-- Claim C8, amended. On normal completion the terminal progress message is
`completedMsg` with the final totals, and on user stop it is `stoppedMsg`
with the final totals — these two outcomes do report total succeeded,
total failed and the outcome.  But on a fatal abort (first fatal error in
window `k`, no cancellation) the progress message is *not* updated at
termination: it remains the in-progress batch message for window `k`,
whose totals are those from before window `k`, and the failure count it
shows is strictly below the run's final `errorCount` (the fatal window's
failures are missing); the outcome itself is reported only through the
separate error channel. -/
theorem terminal_progress_message (env : Env) (chunks : List Chunk) :
    ((runSequence env chunks).2 = Terminal.completed →
      (runSequence env chunks).1.progressStr =
        completedMsg (runSequence env chunks).1.totalGenerated
          (runSequence env chunks).1.errorCount) ∧
    ((runSequence env chunks).2 = Terminal.stopped →
      (runSequence env chunks).1.progressStr =
        stoppedMsg (runSequence env chunks).1.totalGenerated
          (runSequence env chunks).1.errorCount) ∧
    (∀ k e, (∀ n, env.stop n = false) →
      k < (toWindows chunks).length →
      (∀ i, i < k → firstFatal (winResults env (toWindows chunks) i) = none) →
      firstFatal (winResults env (toWindows chunks) k) = some e →
      (runSequence env chunks).2 = Terminal.aborted e ∧
      (runSequence env chunks).1.progressStr =
        batchMsg (k + 1) ((chunks.length + CONCURRENCY - 1) / CONCURRENCY)
          (wLen (toWindows chunks) k)
          ((((List.range k).map fun i =>
            appendedItems (winResults env (toWindows chunks) i)).flatten).length)
          (((List.range k).map fun i =>
            errsCount (winResults env (toWindows chunks) i)).sum) ∧
      (((List.range k).map fun i =>
        errsCount (winResults env (toWindows chunks) i)).sum
        < (runSequence env chunks).1.errorCount)) := by
  refine ⟨?_, ?_, ?_⟩
  · rw [runSequence_eq]
    rcases h : thrownOf env (toWindows chunks) 0 0 with _ | e
    · by_cases hs : env.stop (wEndOf env (toWindows chunks) 0 0) <;> simp [h, hs]
    · simp [h]
  · rw [runSequence_eq]
    rcases h : thrownOf env (toWindows chunks) 0 0 with _ | e
    · by_cases hs : env.stop (wEndOf env (toWindows chunks) 0 0) <;> simp [h, hs]
    · simp [h]
  · intro k e hstop hk hbef hfat
    have hbef' : ∀ i, i < k →
        firstFatal (wRes env (0 + wBase (toWindows chunks) i) (wLen (toWindows chunks) i)) = none := by
      intro i hi
      simpa [winResults] using hbef i hi
    have hfat' :
        firstFatal (wRes env (0 + wBase (toWindows chunks) k) (wLen (toWindows chunks) k)) = some e := by
      simpa [winResults] using hfat
    have ht := thrownOf_fatal env (toWindows chunks) 0 0 k e hstop hk hbef' hfat'
    have hprog := progOf_fatal env ((chunks.length + CONCURRENCY - 1) / CONCURRENCY)
      (toWindows chunks) 0 0 k e 0 0 "" hstop hk hbef' hfat'
    have herr := errsOf_fatal env (toWindows chunks) 0 0 k e hstop hk hbef' hfat'
    obtain ⟨-, -, herrC, -⟩ := runSequence_state env chunks
    have hpos := errsCount_pos_of_firstFatal hfat
    refine ⟨?_, ?_, ?_⟩
    · rw [runSequence_eq]
      simp [ht]
    · rw [runSequence_eq]
      simp only [ht]
      simp [hprog, winResults]
    · rw [herrC, herr]
      simp only [winResults] at hpos
      simp [winResults]
      omega

theorem terminal_progress_message_witness :
    (runSequence
        { outcome := fun _ => .success [⟨"A", "t", "x", "s", "T"⟩],
          settleSeq := fun _ => [0], stop := fun _ => false }
        [⟨0, 5, 5⟩]).1.progressStr =
      completedMsg
        (runSequence
          { outcome := fun _ => .success [⟨"A", "t", "x", "s", "T"⟩],
            settleSeq := fun _ => [0], stop := fun _ => false }
          [⟨0, 5, 5⟩]).1.totalGenerated
        (runSequence
          { outcome := fun _ => .success [⟨"A", "t", "x", "s", "T"⟩],
            settleSeq := fun _ => [0], stop := fun _ => false }
          [⟨0, 5, 5⟩]).1.errorCount :=
  (terminal_progress_message
    { outcome := fun _ => .success [⟨"A", "t", "x", "s", "T"⟩],
      settleSeq := fun _ => [0], stop := fun _ => false }
    [⟨0, 5, 5⟩]).1 (by decide)

theorem newsOf_settle_independent (env env' : Env)
    (ho : env'.outcome = env.outcome) (hs : env'.stop = env.stop) :
    ∀ (ws : List (List Chunk)) (b w : ℕ), newsOf env' ws b w = newsOf env ws b w := by
  intro ws
  induction ws with
  | nil => intro b w; rfl
  | cons batch rest ih =>
    intro b w
    have hw : wRes env' b batch.length = wRes env b batch.length := by simp [wRes, ho]
    by_cases hst : env.stop w
    · simp [newsOf, hs, hst]
    · rcases hf : firstFatal (wRes env b batch.length) with _ | e
      · simp [newsOf, hs, hst, hw, hf, ih]
      · simp [newsOf, hs, hst, hw, hf]

/-- Claim C5 is false as stated.  One window of two chunks, both successful;
the environment resolves chunk 1's fetch *before* chunk 0's (the trace
shows settle 1 before settle 0).  Resolution order would put item "B"
first, but the accumulator is `[A, B]`: the `Promise.all` result array is
iterated in chunk submission order, so items are appended in submission
order, not in the order the owning fetches resolved. -/
theorem newsData_submission_order_cex :
    (runSequence
        { outcome := fun i => if i = 0 then .success [⟨"A", "t", "x", "s", "T"⟩]
            else .success [⟨"B", "t", "y", "s", "T"⟩],
          settleSeq := fun _ => [1, 0],
          stop := fun _ => false }
        [⟨0, 5, 5⟩, ⟨0, 5, 5⟩]).1.trace =
      [Ev.dispatch 0, Ev.dispatch 1, Ev.settle 1, Ev.settle 0] ∧
    (runSequence
        { outcome := fun i => if i = 0 then .success [⟨"A", "t", "x", "s", "T"⟩]
            else .success [⟨"B", "t", "y", "s", "T"⟩],
          settleSeq := fun _ => [1, 0],
          stop := fun _ => false }
        [⟨0, 5, 5⟩, ⟨0, 5, 5⟩]).1.newsData =
      [⟨"A", "t", "x", "s", "T"⟩, ⟨"B", "t", "y", "s", "T"⟩] ∧
    ([⟨"A", "t", "x", "s", "T"⟩, ⟨"B", "t", "y", "s", "T"⟩] : List NewsItem) ≠
      [⟨"B", "t", "y", "s", "T"⟩, ⟨"A", "t", "x", "s", "T"⟩] :=
  ⟨by decide, by decide, by decide⟩

/-- Claim C5, amended.  The accumulator contents are fully determined by the
chunk outcomes in submission order: a run's `newsData` equals `newsOf`
(window by window, each window contributing its successful chunks' items
in the order the chunks were submitted, because the `Promise.all` result
array preserves input order), and it is invariant under any change of the
settle (resolution) order — so items are appended in submission order,
not resolution order. -/
theorem newsData_submission_order (env env' : Env) (chunks : List Chunk)
    (ho : env'.outcome = env.outcome) (hs : env'.stop = env.stop) :
    (runSequence env chunks).1.newsData = newsOf env (toWindows chunks) 0 0 ∧
    (runSequence env' chunks).1.newsData = (runSequence env chunks).1.newsData := by
  obtain ⟨h1, -, -, -⟩ := runSequence_state env chunks
  obtain ⟨h1', -, -, -⟩ := runSequence_state env' chunks
  exact ⟨h1, by rw [h1', h1, newsOf_settle_independent env env' ho hs]⟩

theorem newsData_submission_order_witness :
    (runSequence
        { outcome := fun i => if i = 0 then .success [⟨"A", "t", "x", "s", "T"⟩]
            else .success [⟨"B", "t", "y", "s", "T"⟩],
          settleSeq := fun _ => [0, 1],
          stop := fun _ => false }
        [⟨0, 5, 5⟩, ⟨0, 5, 5⟩]).1.newsData =
      newsOf
        { outcome := fun i => if i = 0 then .success [⟨"A", "t", "x", "s", "T"⟩]
            else .success [⟨"B", "t", "y", "s", "T"⟩],
          settleSeq := fun _ => [0, 1],
          stop := fun _ => false }
        (toWindows [⟨0, 5, 5⟩, ⟨0, 5, 5⟩]) 0 0 ∧
    (runSequence
        { outcome := fun i => if i = 0 then .success [⟨"A", "t", "x", "s", "T"⟩]
            else .success [⟨"B", "t", "y", "s", "T"⟩],
          settleSeq := fun _ => [1, 0],
          stop := fun _ => false }
        [⟨0, 5, 5⟩, ⟨0, 5, 5⟩]).1.newsData =
      (runSequence
        { outcome := fun i => if i = 0 then .success [⟨"A", "t", "x", "s", "T"⟩]
            else .success [⟨"B", "t", "y", "s", "T"⟩],
          settleSeq := fun _ => [0, 1],
          stop := fun _ => false }
        [⟨0, 5, 5⟩, ⟨0, 5, 5⟩]).1.newsData :=
  newsData_submission_order
    { outcome := fun i => if i = 0 then .success [⟨"A", "t", "x", "s", "T"⟩]
        else .success [⟨"B", "t", "y", "s", "T"⟩],
      settleSeq := fun _ => [0, 1],
      stop := fun _ => false }
    { outcome := fun i => if i = 0 then .success [⟨"A", "t", "x", "s", "T"⟩]
        else .success [⟨"B", "t", "y", "s", "T"⟩],
      settleSeq := fun _ => [1, 0],
      stop := fun _ => false }
    [⟨0, 5, 5⟩, ⟨0, 5, 5⟩] rfl rfl

/-- Claim C7. With 3 chunks and concurrency 3 — exactly one window — a single
transient (non-fatal) failure at any position `j` and successes at the two
other positions do not abort the run and do not affect the sibling chunks:
the run completes normally (`Terminal.completed`), `totalFailed = 1`, and
`totalSucceeded` is the sum of the two successful chunks' item counts (the
items themselves all arriving, in submission order). -/
theorem transient_failure_isolated (c1 c2 c3 : Chunk) (env : Env) (j : ℕ) (e : GenError)
    (items : ℕ → List NewsItem)
    (hstop : ∀ n, env.stop n = false)
    (hj : j < 3) (hfail : env.outcome j = .failure e) (hfatal : isFatal e = false)
    (hsucc : ∀ i, i < 3 → i ≠ j → env.outcome i = .success (items i)) :
    (runSequence env [c1, c2, c3]).2 = Terminal.completed ∧
    (runSequence env [c1, c2, c3]).1.errorCount = 1 ∧
    (runSequence env [c1, c2, c3]).1.totalGenerated =
      (((List.range 3).filter fun i => i != j).map fun i => (items i).length).sum ∧
    (runSequence env [c1, c2, c3]).1.newsData =
      (((List.range 3).filter fun i => i != j).map items).flatten := by
  interval_cases j
  · have h1 := hsucc 1 (by omega) (by omega)
    have h2 := hsucc 2 (by omega) (by omega)
    rw [runSequence_eq]
    simp [toWindows, newsOf, errsOf, thrownOf, wEndOf, wRes, firstFatal, appendedItems,
      errsCount, List.range_succ, hfail, h1, h2, hfatal, hstop]
  · have h1 := hsucc 0 (by omega) (by omega)
    have h2 := hsucc 2 (by omega) (by omega)
    rw [runSequence_eq]
    simp [toWindows, newsOf, errsOf, thrownOf, wEndOf, wRes, firstFatal, appendedItems,
      errsCount, List.range_succ, hfail, h1, h2, hfatal, hstop]
  · have h1 := hsucc 0 (by omega) (by omega)
    have h2 := hsucc 1 (by omega) (by omega)
    rw [runSequence_eq]
    simp [toWindows, newsOf, errsOf, thrownOf, wEndOf, wRes, firstFatal, appendedItems,
      errsCount, List.range_succ, hfail, h1, h2, hfatal, hstop]

theorem transient_failure_isolated_witness :
    (runSequence
        { outcome := fun i => if i = 0 then .failure ⟨"rate limit"⟩
            else .success [⟨"B", "t", "y", "s", "T"⟩],
          settleSeq := fun _ => [0, 1, 2], stop := fun _ => false }
        [⟨0, 5, 5⟩, ⟨5, 10, 5⟩, ⟨10, 15, 5⟩]).2 = Terminal.completed ∧
    (runSequence
        { outcome := fun i => if i = 0 then .failure ⟨"rate limit"⟩
            else .success [⟨"B", "t", "y", "s", "T"⟩],
          settleSeq := fun _ => [0, 1, 2], stop := fun _ => false }
        [⟨0, 5, 5⟩, ⟨5, 10, 5⟩, ⟨10, 15, 5⟩]).1.errorCount = 1 ∧
    (runSequence
        { outcome := fun i => if i = 0 then .failure ⟨"rate limit"⟩
            else .success [⟨"B", "t", "y", "s", "T"⟩],
          settleSeq := fun _ => [0, 1, 2], stop := fun _ => false }
        [⟨0, 5, 5⟩, ⟨5, 10, 5⟩, ⟨10, 15, 5⟩]).1.totalGenerated =
      (((List.range 3).filter fun i => i != 0).map fun i =>
        ((fun _ => [(⟨"B", "t", "y", "s", "T"⟩ : NewsItem)]) i).length).sum ∧
    (runSequence
        { outcome := fun i => if i = 0 then .failure ⟨"rate limit"⟩
            else .success [⟨"B", "t", "y", "s", "T"⟩],
          settleSeq := fun _ => [0, 1, 2], stop := fun _ => false }
        [⟨0, 5, 5⟩, ⟨5, 10, 5⟩, ⟨10, 15, 5⟩]).1.newsData =
      (((List.range 3).filter fun i => i != 0).map
        fun _ => [(⟨"B", "t", "y", "s", "T"⟩ : NewsItem)]).flatten :=
  transient_failure_isolated ⟨0, 5, 5⟩ ⟨5, 10, 5⟩ ⟨10, 15, 5⟩
    { outcome := fun i => if i = 0 then .failure ⟨"rate limit"⟩
        else .success [⟨"B", "t", "y", "s", "T"⟩],
      settleSeq := fun _ => [0, 1, 2], stop := fun _ => false }
    0 ⟨"rate limit"⟩ (fun _ => [⟨"B", "t", "y", "s", "T"⟩])
    (fun _ => rfl) (by decide) rfl (by decide)
    (by
      intro i h1 h2
      interval_cases i
      · exact absurd rfl h2
      · rfl
      · rfl)

theorem wRes_stop (env : Env) (f : ℕ → Bool) (b k : ℕ) :
    wRes { env with stop := f } b k = wRes env b k := rfl

theorem aux_stop_cut (env : Env) :
    ∀ (j : ℕ) (ws : List (List Chunk)) (b w : ℕ),
      (∀ d, d < j → env.stop (w + d) = false) →
      env.stop (w + j) = true →
      newsOf env ws b w = newsOf { env with stop := fun _ => false } (ws.take j) b w ∧
      errsOf env ws b w = errsOf { env with stop := fun _ => false } (ws.take j) b w ∧
      thrownOf env ws b w = thrownOf { env with stop := fun _ => false } (ws.take j) b w ∧
      traceOf env ws b w = traceOf { env with stop := fun _ => false } (ws.take j) b w ∧
      (thrownOf env ws b w = none → wEndOf env ws b w = w + min j ws.length) := by
  intro j
  induction j with
  | zero =>
    intro ws b w _ hj
    rw [Nat.add_zero] at hj
    cases ws <;> simp [newsOf, errsOf, thrownOf, traceOf, wEndOf, hj]
  | succ j ih =>
    intro ws b w hlt hj
    cases ws with
    | nil => simp [newsOf, errsOf, thrownOf, traceOf, wEndOf]
    | cons batch rest =>
      have h0 : env.stop w = false := by
        have := hlt 0 (Nat.succ_pos j)
        rwa [Nat.add_zero] at this
      have hlt' : ∀ d, d < j → env.stop (w + 1 + d) = false := by
        intro d hd
        have := hlt (d + 1) (by omega)
        rwa [show w + (d + 1) = w + 1 + d by omega] at this
      have hj' : env.stop (w + 1 + j) = true := by
        rwa [show w + (j + 1) = w + 1 + j by omega] at hj
      obtain ⟨ihn, ihe, iht, ihtr, ihw⟩ := ih rest (b + batch.length) (w + 1) hlt' hj'
      rcases hf : firstFatal (wRes env b batch.length) with _ | e
      · refine ⟨?_, ?_, ?_, ?_, ?_⟩
        · simp [newsOf, h0, hf, wRes_stop, ihn]
        · simp [errsOf, h0, hf, wRes_stop, ihe]
        · simp [thrownOf, h0, hf, wRes_stop, iht]
        · simp [traceOf, h0, hf, wRes_stop, ihtr]
        · intro hnone
          have hnone' : thrownOf env rest (b + batch.length) (w + 1) = none := by
            simpa [thrownOf, h0, hf] using hnone
          have hrec := ihw hnone'
          simp [wEndOf, h0, hf, hrec]
          omega
      · refine ⟨?_, ?_, ?_, ?_, ?_⟩
        · simp [newsOf, h0, hf, wRes_stop]
        · simp [errsOf, h0, hf, wRes_stop]
        · simp [thrownOf, h0, hf, wRes_stop]
        · simp [traceOf, h0, hf, wRes_stop]
        · intro hnone
          simp [thrownOf, h0, hf] at hnone

theorem thrownOf_noFatal (env : Env) :
    ∀ (ws : List (List Chunk)) (b w : ℕ),
      (∀ n, env.stop n = false) →
      (∀ i, i < ws.length → firstFatal (wRes env (b + wBase ws i) (wLen ws i)) = none) →
      thrownOf env ws b w = none := by
  intro ws
  induction ws with
  | nil => intro b w _ _; rfl
  | cons batch rest ih =>
    intro b w hstop hno
    have h0 := hno 0 (by simp)
    rw [wBase_zero, Nat.add_zero, wLen_cons_zero] at h0
    have hno' : ∀ i, i < rest.length →
        firstFatal (wRes env (b + batch.length + wBase rest i) (wLen rest i)) = none := by
      intro i hi
      have := hno (i + 1) (by simpa using hi)
      rw [wBase_cons_succ, wLen_cons_succ] at this
      rw [Nat.add_assoc]
      exact this
    simp [thrownOf, hstop w, h0, ih _ _ hstop hno']

theorem newsOf_noFatal (env : Env) :
    ∀ (ws : List (List Chunk)) (b w : ℕ),
      (∀ n, env.stop n = false) →
      (∀ i, i < ws.length → firstFatal (wRes env (b + wBase ws i) (wLen ws i)) = none) →
      newsOf env ws b w =
        ((List.range ws.length).map fun i =>
          appendedItems (wRes env (b + wBase ws i) (wLen ws i))).flatten := by
  intro ws
  induction ws with
  | nil => intro b w _ _; rfl
  | cons batch rest ih =>
    intro b w hstop hno
    have h0 := hno 0 (by simp)
    rw [wBase_zero, Nat.add_zero, wLen_cons_zero] at h0
    have hno' : ∀ i, i < rest.length →
        firstFatal (wRes env (b + batch.length + wBase rest i) (wLen rest i)) = none := by
      intro i hi
      have := hno (i + 1) (by simpa using hi)
      rw [wBase_cons_succ, wLen_cons_succ] at this
      rw [Nat.add_assoc]
      exact this
    have ihh := ih (b + batch.length) (w + 1) hstop hno'
    simp only [newsOf, hstop w, Bool.false_eq_true, if_false, h0, ihh, List.length_cons]
    conv_rhs => rw [flatten_map_range_succ]
    simp [wBase_zero, wLen_cons_zero, wBase_cons_succ, wLen_cons_succ, Nat.add_assoc]

theorem traceOf_noFatal (env : Env) :
    ∀ (ws : List (List Chunk)) (b w : ℕ),
      (∀ n, env.stop n = false) →
      (∀ i, i < ws.length → firstFatal (wRes env (b + wBase ws i) (wLen ws i)) = none) →
      traceOf env ws b w =
        ((List.range ws.length).map fun i =>
          windowEvents (b + wBase ws i) (wLen ws i) (env.settleSeq (w + i))).flatten := by
  intro ws
  induction ws with
  | nil => intro b w _ _; rfl
  | cons batch rest ih =>
    intro b w hstop hno
    have h0 := hno 0 (by simp)
    rw [wBase_zero, Nat.add_zero, wLen_cons_zero] at h0
    have hno' : ∀ i, i < rest.length →
        firstFatal (wRes env (b + batch.length + wBase rest i) (wLen rest i)) = none := by
      intro i hi
      have := hno (i + 1) (by simpa using hi)
      rw [wBase_cons_succ, wLen_cons_succ] at this
      rw [Nat.add_assoc]
      exact this
    have ihh := ih (b + batch.length) (w + 1) hstop hno'
    simp only [traceOf, hstop w, Bool.false_eq_true, if_false, h0, ihh, List.length_cons]
    conv_rhs => rw [flatten_map_range_succ]
    simp [wBase_zero, wLen_cons_zero, wBase_cons_succ, wLen_cons_succ, Nat.add_assoc,
      Nat.add_comm, Nat.add_left_comm]

theorem wBase_take (ws : List (List Chunk)) {i j : ℕ} (h : i ≤ j) :
    wBase (ws.take j) i = wBase ws i := by
  simp [wBase, List.take_take, Nat.min_eq_left h]

theorem wLen_take (ws : List (List Chunk)) {i j : ℕ} (h : i < j) :
    wLen (ws.take j) i = wLen ws i := by
  simp [wLen, List.getD_eq_getElem?_getD, List.getElem?_take, h]

/-- Claim C3. If cancellation is requested during the inter-window pause after
window `k` — the stop flag reads false at the boundaries of windows `0..k`
and true at window `k+1`'s boundary — while the processed windows are
fatal-free and window `k+1` exists, then: the run terminates as
`Terminal.stopped`; window `k+1` is never dispatched (every dispatched
chunk index lies below window `k+1`'s first chunk); the accumulator holds
exactly the appends of windows `0..k`, so every item already appended
remains; and the trace consists of the *complete* event blocks of windows
`0..k` — each processed window's fetches all dispatched and all settled —
i.e. cancellation is checked only at window boundaries and never
interrupts an in-flight fetch. -/
theorem cancellation_window_boundary (env : Env) (chunks : List Chunk) (k : ℕ)
    (hstop : ∀ d, d ≤ k → env.stop d = false)
    (hreq : env.stop (k + 1) = true)
    (hnofatal : ∀ i, i ≤ k → firstFatal (winResults env (toWindows chunks) i) = none)
    (hlt : k + 1 < (toWindows chunks).length) :
    (runSequence env chunks).2 = Terminal.stopped ∧
    (runSequence env chunks).1.newsData =
      ((List.range (k + 1)).map fun i =>
        appendedItems (winResults env (toWindows chunks) i)).flatten ∧
    (runSequence env chunks).1.trace =
      ((List.range (k + 1)).map fun i =>
        windowEvents (wBase (toWindows chunks) i) (wLen (toWindows chunks) i)
          (env.settleSeq i)).flatten ∧
    ∀ i, Ev.dispatch i ∈ (runSequence env chunks).1.trace →
      i < wBase (toWindows chunks) (k + 1) := by
  obtain ⟨hn, he, hth, htr, hw⟩ := aux_stop_cut env (k + 1) (toWindows chunks) 0 0
    (by intro d hd; simpa using hstop d (by omega))
    (by simpa using hreq)
  have hlen : ((toWindows chunks).take (k + 1)).length = k + 1 := by
    rw [List.length_take]
    omega
  have hnoNS : ∀ i, i < ((toWindows chunks).take (k + 1)).length →
      firstFatal (wRes { env with stop := fun _ => false }
        (0 + wBase ((toWindows chunks).take (k + 1)) i)
        (wLen ((toWindows chunks).take (k + 1)) i)) = none := by
    intro i hi
    rw [hlen] at hi
    rw [wRes_stop, Nat.zero_add, wBase_take (toWindows chunks) (by omega),
      wLen_take (toWindows chunks) (by omega)]
    exact hnofatal i (by omega)
  have hthNS := thrownOf_noFatal { env with stop := fun _ => false }
    ((toWindows chunks).take (k + 1)) 0 0 (fun _ => rfl) hnoNS
  have hthNone : thrownOf env (toWindows chunks) 0 0 = none := by rw [hth]; exact hthNS
  have hwEnd : wEndOf env (toWindows chunks) 0 0 = k + 1 := by
    have := hw hthNone
    rw [this, Nat.zero_add, Nat.min_eq_left (by omega)]
  obtain ⟨hnews, -, -, htrace⟩ := runSequence_state env chunks
  have hnewsEq : (runSequence env chunks).1.newsData =
      ((List.range (k + 1)).map fun i =>
        appendedItems (winResults env (toWindows chunks) i)).flatten := by
    rw [hnews, hn,
      newsOf_noFatal { env with stop := fun _ => false }
        ((toWindows chunks).take (k + 1)) 0 0 (fun _ => rfl) hnoNS, hlen]
    congr 1
    apply List.map_congr_left
    intro i hi
    have hik := List.mem_range.1 hi
    rw [wRes_stop, Nat.zero_add, wBase_take (toWindows chunks) (by omega),
      wLen_take (toWindows chunks) (by omega)]
    rfl
  have htraceEq : (runSequence env chunks).1.trace =
      ((List.range (k + 1)).map fun i =>
        windowEvents (wBase (toWindows chunks) i) (wLen (toWindows chunks) i)
          (env.settleSeq i)).flatten := by
    rw [htrace, htr,
      traceOf_noFatal { env with stop := fun _ => false }
        ((toWindows chunks).take (k + 1)) 0 0 (fun _ => rfl) hnoNS, hlen]
    congr 1
    apply List.map_congr_left
    intro i hi
    have hik := List.mem_range.1 hi
    rw [Nat.zero_add, Nat.zero_add, wBase_take (toWindows chunks) (by omega),
      wLen_take (toWindows chunks) (by omega)]
  refine ⟨?_, hnewsEq, htraceEq, ?_⟩
  · rw [runSequence_eq]
    simp [hthNone, hwEnd, hreq]
  · intro i hi
    rw [htraceEq] at hi
    rcases List.mem_flatten.1 hi with ⟨bl, hbl, hibl⟩
    rcases List.mem_map.1 hbl with ⟨j, hj, rfl⟩
    have hj' := List.mem_range.1 hj
    obtain ⟨-, hblt⟩ := dispatch_mem_windowEvents hibl
    have hsucc := wBase_succ_eq (toWindows chunks) j (by omega)
    have hmono : wBase (toWindows chunks) (j + 1) ≤ wBase (toWindows chunks) (k + 1) :=
      wBase_mono _ (by omega)
    omega

theorem cancellation_window_boundary_witness :
    (runSequence
        { outcome := fun _ => .success [⟨"A", "t", "x", "s", "T"⟩],
          settleSeq := fun _ => [0, 1, 2], stop := fun w => w != 0 }
        [⟨0, 5, 5⟩, ⟨0, 5, 5⟩, ⟨0, 5, 5⟩, ⟨0, 5, 5⟩, ⟨0, 5, 5⟩, ⟨0, 5, 5⟩]).2 =
      Terminal.stopped ∧
    (runSequence
        { outcome := fun _ => .success [⟨"A", "t", "x", "s", "T"⟩],
          settleSeq := fun _ => [0, 1, 2], stop := fun w => w != 0 }
        [⟨0, 5, 5⟩, ⟨0, 5, 5⟩, ⟨0, 5, 5⟩, ⟨0, 5, 5⟩, ⟨0, 5, 5⟩, ⟨0, 5, 5⟩]).1.newsData =
      ((List.range 1).map fun i =>
        appendedItems (winResults
          { outcome := fun _ => .success [⟨"A", "t", "x", "s", "T"⟩],
            settleSeq := fun _ => [0, 1, 2], stop := fun w => w != 0 }
          (toWindows [⟨0, 5, 5⟩, ⟨0, 5, 5⟩, ⟨0, 5, 5⟩, ⟨0, 5, 5⟩, ⟨0, 5, 5⟩, ⟨0, 5, 5⟩])
          i)).flatten ∧
    (runSequence
        { outcome := fun _ => .success [⟨"A", "t", "x", "s", "T"⟩],
          settleSeq := fun _ => [0, 1, 2], stop := fun w => w != 0 }
        [⟨0, 5, 5⟩, ⟨0, 5, 5⟩, ⟨0, 5, 5⟩, ⟨0, 5, 5⟩, ⟨0, 5, 5⟩, ⟨0, 5, 5⟩]).1.trace =
      ((List.range 1).map fun i =>
        windowEvents
          (wBase (toWindows [⟨0, 5, 5⟩, ⟨0, 5, 5⟩, ⟨0, 5, 5⟩, ⟨0, 5, 5⟩, ⟨0, 5, 5⟩, ⟨0, 5, 5⟩]) i)
          (wLen (toWindows [⟨0, 5, 5⟩, ⟨0, 5, 5⟩, ⟨0, 5, 5⟩, ⟨0, 5, 5⟩, ⟨0, 5, 5⟩, ⟨0, 5, 5⟩]) i)
          ([0, 1, 2])).flatten ∧
    ∀ i, Ev.dispatch i ∈ (runSequence
        { outcome := fun _ => .success [⟨"A", "t", "x", "s", "T"⟩],
          settleSeq := fun _ => [0, 1, 2], stop := fun w => w != 0 }
        [⟨0, 5, 5⟩, ⟨0, 5, 5⟩, ⟨0, 5, 5⟩, ⟨0, 5, 5⟩, ⟨0, 5, 5⟩, ⟨0, 5, 5⟩]).1.trace →
      i < wBase (toWindows [⟨0, 5, 5⟩, ⟨0, 5, 5⟩, ⟨0, 5, 5⟩, ⟨0, 5, 5⟩, ⟨0, 5, 5⟩, ⟨0, 5, 5⟩]) 1 :=
  cancellation_window_boundary
    { outcome := fun _ => .success [⟨"A", "t", "x", "s", "T"⟩],
      settleSeq := fun _ => [0, 1, 2], stop := fun w => w != 0 }
    [⟨0, 5, 5⟩, ⟨0, 5, 5⟩, ⟨0, 5, 5⟩, ⟨0, 5, 5⟩, ⟨0, 5, 5⟩, ⟨0, 5, 5⟩] 0
    (by
      intro d hd
      have h0 : d = 0 := Nat.le_zero.mp hd
      subst h0
      rfl)
    rfl
    (by
      intro i hi
      have h0 : i = 0 := Nat.le_zero.mp hi
      subst h0
      decide)
    (by decide)

theorem dispCount_windowEvents (b k : ℕ) (s : List ℕ) :
    dispCount (windowEvents b k s) = k := by
  simp [dispCount, windowEvents, List.countP_append, List.countP_map, Function.comp_def,
    isDispatch, isSettle]

theorem settleCount_windowEvents (b k : ℕ) (s : List ℕ) :
    settleCount (windowEvents b k s) = s.length := by
  simp [settleCount, windowEvents, List.countP_append, List.countP_map, Function.comp_def,
    isDispatch, isSettle]

theorem dispatchIdxs_append (t u : List Ev) :
    dispatchIdxs (t ++ u) = dispatchIdxs t ++ dispatchIdxs u := by
  simp [dispatchIdxs]

theorem dispatchIdxs_windowEvents (b k : ℕ) (s : List ℕ) :
    dispatchIdxs (windowEvents b k s) = List.range' b k := by
  simp only [windowEvents, dispatchIdxs, List.filterMap_append]
  rw [List.range'_eq_map_range]
  simp only [List.filterMap_map, Function.comp_def]
  have h1 : List.filterMap (fun x : ℕ => some (b + x)) (List.range k) =
      List.map (fun x => b + x) (List.range k) := by
    rw [show (fun x : ℕ => some (b + x)) = some ∘ (fun x => b + x) from rfl,
      List.filterMap_eq_map]
  have h2 : List.filterMap (fun _ : ℕ => (none : Option ℕ)) s = [] := by
    induction s with
    | nil => rfl
    | cons a t iht => simp [List.filterMap_cons, iht]
  rw [h1, h2, List.append_nil]

theorem toWindows_cons3 (c1 c2 c3 : Chunk) (rest : List Chunk) :
    toWindows (c1 :: c2 :: c3 :: rest) = [c1, c2, c3] :: toWindows rest := rfl

theorem toWindows_aux :
    ∀ (n : ℕ) (l : List Chunk), l.length ≤ n →
      (∀ bl ∈ toWindows l, bl.length ≤ CONCURRENCY) ∧
      ((toWindows l).map List.length).sum = l.length := by
  intro n
  induction n with
  | zero =>
    intro l hl
    have hnil : l = [] := List.length_eq_zero.mp (Nat.le_zero.mp hl)
    subst hnil
    simp [toWindows]
  | succ n ih =>
    intro l hl
    rcases l with _ | ⟨c1, l⟩
    · simp [toWindows]
    rcases l with _ | ⟨c2, l⟩
    · simp [toWindows, CONCURRENCY]
    rcases l with _ | ⟨c3, l⟩
    · simp [toWindows, CONCURRENCY]
    obtain ⟨ih1, ih2⟩ := ih l (by simp at hl; omega)
    rw [toWindows_cons3]
    constructor
    · intro bl hbl
      rcases List.mem_cons.1 hbl with rfl | hbl
      · simp [CONCURRENCY]
      · exact ih1 bl hbl
    · simp [ih2]
      omega

theorem wBase_full (ws : List (List Chunk)) :
    wBase ws ws.length = (ws.map List.length).sum := by
  simp [wBase, List.take_length]

theorem traceOf_blocks (env : Env) :
    ∀ (ws : List (List Chunk)) (b w : ℕ), ∃ m, m ≤ ws.length ∧
      traceOf env ws b w =
        ((List.range m).map fun i =>
          windowEvents (b + wBase ws i) (wLen ws i) (env.settleSeq (w + i))).flatten := by
  intro ws
  induction ws with
  | nil => intro b w; exact ⟨0, by simp, by simp [traceOf]⟩
  | cons batch rest ih =>
    intro b w
    by_cases hs : env.stop w
    · exact ⟨0, by simp, by simp [traceOf, hs]⟩
    · rcases hf : firstFatal (wRes env b batch.length) with _ | e
      · obtain ⟨m, hm, hmtr⟩ := ih (b + batch.length) (w + 1)
        refine ⟨m + 1, by simpa using hm, ?_⟩
        simp only [traceOf, hs, Bool.false_eq_true, if_false, hf, hmtr]
        conv_rhs => rw [flatten_map_range_succ]
        simp [wBase_zero, wLen_cons_zero, wBase_cons_succ, wLen_cons_succ, Nat.add_assoc,
          Nat.add_comm, Nat.add_left_comm]
      · refine ⟨1, by simp, ?_⟩
        simp [traceOf, hs, hf, wBase_zero, wLen_cons_zero, List.range_succ]

theorem dispatchIdxs_blocks (env : Env) (ws : List (List Chunk)) (b w : ℕ) :
    ∀ m, m ≤ ws.length →
      dispatchIdxs (((List.range m).map fun i =>
        windowEvents (b + wBase ws i) (wLen ws i) (env.settleSeq (w + i))).flatten) =
      List.range' b (wBase ws m) := by
  intro m
  induction m with
  | zero => intro _; simp [dispatchIdxs, wBase_zero]
  | succ m ih =>
    intro hm
    rw [List.range_succ, List.map_append, List.flatten_append, dispatchIdxs_append,
      ih (by omega)]
    simp only [List.map_cons, List.map_nil, List.flatten_cons, List.flatten_nil,
      List.append_nil, dispatchIdxs_windowEvents]
    rw [wBase_succ_eq ws m (by omega)]
    rw [show wBase ws m + wLen ws m = wLen ws m + wBase ws m from Nat.add_comm _ _]
    simp

theorem blocks_bound :
    ∀ (blocks : List (List Ev)),
      (∀ bl ∈ blocks, ∃ b k s, k ≤ CONCURRENCY ∧ List.length (s : List ℕ) = k ∧
        bl = windowEvents b k s) →
      dispCount blocks.flatten = settleCount blocks.flatten ∧
      ∀ n, dispCount (blocks.flatten.take n) ≤ settleCount (blocks.flatten.take n) + CONCURRENCY := by
  intro blocks
  induction blocks with
  | nil =>
    intro _
    refine ⟨rfl, ?_⟩
    intro n
    simp [dispCount, settleCount, CONCURRENCY]
  | cons bl rest ih =>
    intro hsh
    obtain ⟨b, k, s, hk, hsl, rfl⟩ := hsh _ (List.mem_cons_self _ _)
    obtain ⟨ihb, ihn⟩ := ih (fun x hx => hsh x (List.mem_cons_of_mem _ hx))
    constructor
    · simp only [List.flatten_cons, dispCount, settleCount, List.countP_append] at *
      have hd := dispCount_windowEvents b k s
      have hs := settleCount_windowEvents b k s
      simp only [dispCount, settleCount] at hd hs
      omega
    · intro n
      rw [List.flatten_cons, List.take_append_eq_append_take]
      have h1 : dispCount (List.take n (windowEvents b k s)) ≤ k := by
        calc dispCount (List.take n (windowEvents b k s))
            ≤ dispCount (windowEvents b k s) :=
              List.Sublist.countP_le _ (List.take_sublist _ _)
          _ = k := dispCount_windowEvents b k s
      by_cases hn : (windowEvents b k s).length ≤ n
      · rw [List.take_of_length_le hn]
        have h2 := ihn (n - (windowEvents b k s).length)
        have hd := dispCount_windowEvents b k s
        have hs := settleCount_windowEvents b k s
        simp only [dispCount, settleCount, List.countP_append] at *
        omega
      · have h0 : n - (windowEvents b k s).length = 0 := by omega
        rw [h0, List.take_zero, List.append_nil]
        have hs0 : 0 ≤ settleCount (List.take n (windowEvents b k s)) := Nat.zero_le _
        simp only [dispCount, settleCount] at *
        omega

/-- Claim C6. The scheduler partitions the chunk list into consecutive windows
of at most `CONCURRENCY = 3` chunks and awaits every fetch of a window
before starting the next, so no more than `CONCURRENCY` fetches are ever in
flight.  Formally, whenever each window's promises all settle (the
`Promise.all` fan-in: settle sequences have the window's length), the
run's event trace satisfies: (1) the dispatched chunk indices are exactly
`0, 1, 2, …` up to some `m ≤ chunks.length` — consecutive chunks, each
dispatched at most once, in order; (2) every dispatched fetch settles;
(3) in every prefix of the trace, dispatched-minus-settled never exceeds
`CONCURRENCY`; (4) the trace decomposes into per-window blocks, each a
fan-out of at most `CONCURRENCY` dispatches followed by exactly that many
settles — a window's fetches all settle before the next window dispatches. -/
theorem concurrency_bound (env : Env) (chunks : List Chunk)
    (hsl : ∀ w, w < (toWindows chunks).length →
      (env.settleSeq w).length = wLen (toWindows chunks) w) :
    (∃ m, m ≤ chunks.length ∧
      dispatchIdxs (runSequence env chunks).1.trace = List.range m) ∧
    dispCount (runSequence env chunks).1.trace = settleCount (runSequence env chunks).1.trace ∧
    (∀ n, dispCount (((runSequence env chunks).1.trace).take n) ≤
      settleCount (((runSequence env chunks).1.trace).take n) + CONCURRENCY) ∧
    (∃ blocks : List (List Ev), (runSequence env chunks).1.trace = blocks.flatten ∧
      ∀ bl ∈ blocks, ∃ b k s, k ≤ CONCURRENCY ∧ List.length (s : List ℕ) = k ∧
        bl = windowEvents b k s) := by
  obtain ⟨-, -, -, htrace⟩ := runSequence_state env chunks
  obtain ⟨m, hm, htr⟩ := traceOf_blocks env (toWindows chunks) 0 0
  have hblshape : ∀ bl ∈ (List.range m).map fun i =>
      windowEvents (0 + wBase (toWindows chunks) i) (wLen (toWindows chunks) i)
        (env.settleSeq (0 + i)),
      ∃ b k s, k ≤ CONCURRENCY ∧ List.length (s : List ℕ) = k ∧ bl = windowEvents b k s := by
    intro bl hbl
    rcases List.mem_map.1 hbl with ⟨i, hi, rfl⟩
    have hi' : i < (toWindows chunks).length := lt_of_lt_of_le (List.mem_range.1 hi) hm
    refine ⟨0 + wBase (toWindows chunks) i, wLen (toWindows chunks) i,
      env.settleSeq (0 + i), ?_, ?_, rfl⟩
    · have hmem : (toWindows chunks).getD i [] ∈ toWindows chunks := by
        rw [List.getD_eq_getElem _ _ hi']
        exact List.getElem_mem hi'
      exact (toWindows_aux chunks.length chunks le_rfl).1 _ hmem
    · rw [Nat.zero_add]
      exact hsl i hi'
  obtain ⟨hbal, hbound⟩ := blocks_bound _ hblshape
  refine ⟨?_, ?_, ?_, ?_⟩
  · refine ⟨wBase (toWindows chunks) m, ?_, ?_⟩
    · calc wBase (toWindows chunks) m
          ≤ wBase (toWindows chunks) (toWindows chunks).length := wBase_mono _ hm
        _ = ((toWindows chunks).map List.length).sum := wBase_full _
        _ = chunks.length := (toWindows_aux chunks.length chunks le_rfl).2
    · rw [htrace, htr, dispatchIdxs_blocks env (toWindows chunks) 0 0 m hm,
        ← List.range_eq_range']
  · rw [htrace, htr]
    exact hbal
  · intro n
    rw [htrace, htr]
    exact hbound n
  · exact ⟨_, by rw [htrace, htr], hblshape⟩

theorem concurrency_bound_witness :
    (∃ m, m ≤ ([(⟨0, 5, 5⟩ : Chunk), ⟨0, 5, 5⟩, ⟨0, 5, 5⟩, ⟨0, 5, 5⟩] : List Chunk).length ∧
      dispatchIdxs (runSequence
        { outcome := fun _ => .success [⟨"A", "t", "x", "s", "T"⟩],
          settleSeq := fun w => if w = 0 then [0, 1, 2] else [3],
          stop := fun _ => false }
        [⟨0, 5, 5⟩, ⟨0, 5, 5⟩, ⟨0, 5, 5⟩, ⟨0, 5, 5⟩]).1.trace = List.range m) ∧
    dispCount (runSequence
        { outcome := fun _ => .success [⟨"A", "t", "x", "s", "T"⟩],
          settleSeq := fun w => if w = 0 then [0, 1, 2] else [3],
          stop := fun _ => false }
        [⟨0, 5, 5⟩, ⟨0, 5, 5⟩, ⟨0, 5, 5⟩, ⟨0, 5, 5⟩]).1.trace =
      settleCount (runSequence
        { outcome := fun _ => .success [⟨"A", "t", "x", "s", "T"⟩],
          settleSeq := fun w => if w = 0 then [0, 1, 2] else [3],
          stop := fun _ => false }
        [⟨0, 5, 5⟩, ⟨0, 5, 5⟩, ⟨0, 5, 5⟩, ⟨0, 5, 5⟩]).1.trace ∧
    (∀ n, dispCount (((runSequence
        { outcome := fun _ => .success [⟨"A", "t", "x", "s", "T"⟩],
          settleSeq := fun w => if w = 0 then [0, 1, 2] else [3],
          stop := fun _ => false }
        [⟨0, 5, 5⟩, ⟨0, 5, 5⟩, ⟨0, 5, 5⟩, ⟨0, 5, 5⟩]).1.trace).take n) ≤
      settleCount (((runSequence
        { outcome := fun _ => .success [⟨"A", "t", "x", "s", "T"⟩],
          settleSeq := fun w => if w = 0 then [0, 1, 2] else [3],
          stop := fun _ => false }
        [⟨0, 5, 5⟩, ⟨0, 5, 5⟩, ⟨0, 5, 5⟩, ⟨0, 5, 5⟩]).1.trace).take n) + CONCURRENCY) ∧
    (∃ blocks : List (List Ev), (runSequence
        { outcome := fun _ => .success [⟨"A", "t", "x", "s", "T"⟩],
          settleSeq := fun w => if w = 0 then [0, 1, 2] else [3],
          stop := fun _ => false }
        [⟨0, 5, 5⟩, ⟨0, 5, 5⟩, ⟨0, 5, 5⟩, ⟨0, 5, 5⟩]).1.trace = blocks.flatten ∧
      ∀ bl ∈ blocks, ∃ b k s, k ≤ CONCURRENCY ∧ List.length (s : List ℕ) = k ∧
        bl = windowEvents b k s) :=
  concurrency_bound
    { outcome := fun _ => .success [⟨"A", "t", "x", "s", "T"⟩],
      settleSeq := fun w => if w = 0 then [0, 1, 2] else [3],
      stop := fun _ => false }
    [⟨0, 5, 5⟩, ⟨0, 5, 5⟩, ⟨0, 5, 5⟩, ⟨0, 5, 5⟩]
    (by
      intro w hw
      have h2 : (toWindows [(⟨0, 5, 5⟩ : Chunk), ⟨0, 5, 5⟩, ⟨0, 5, 5⟩, ⟨0, 5, 5⟩]).length = 2 := by
        decide
      rw [h2] at hw
      interval_cases w
      · decide
      · decide)
